import Mathlib

/-!
Verification of the mode-of-operation layer of the `python-cryptoplus`
repository (`Cipher/python_AES.py`, `Cipher/python_DES.py`) against its
natural-language specification.

The repository source provides the two thin wrapper modules; the generic
mode engine (`blockcipher.py`) and the block primitives (`rijndael.py`,
`pyDes.py`) are consumed by those wrappers but their files are not part of
the provided source tree, so they are modelled from the specification
(section references are to the spec): each such definition carries a
doc comment starting with `Modelled from the spec:`.

Bytes are modelled as natural numbers (values below 256 in all concrete
data); byte strings are lists of naturals.
-/

set_option maxHeartbeats 2000000

set_option maxRecDepth 100000

set_option linter.unusedVariables false

/-! ## Byte-string helpers -/

/-- Pointwise XOR of two byte strings (truncates to the shorter one),
as Python's per-byte `ord`/`chr` XOR loops do. -/
def xorBytes (a b : List Nat) : List Nat := List.zipWith Nat.xor a b

/-- Big-endian byte rendering of a natural number into `n` bytes
(used for CTR counter blocks, spec section 4.5). -/
def natToBytesBE (n v : Nat) : List Nat :=
  (List.range n).map (fun i => (v >>> (8 * (n - 1 - i))) % 256)

/-- Little-endian byte rendering of a natural number into `n` bytes
(used for XTS tweak values, spec section 4.6 / IEEE 1619 convention). -/
def natToBytesLE (n v : Nat) : List Nat :=
  (List.range n).map (fun i => (v >>> (8 * i)) % 256)

/-- Little-endian byte string to natural number. -/
def bytesToNatLE (bs : List Nat) : Nat :=
  bs.foldr (fun b acc => b + 256 * acc) 0

theorem xorBytes_length (a b : List Nat) :
    (xorBytes a b).length = min a.length b.length := by
  simp [xorBytes]

theorem natToBytesBE_length (n v : Nat) : (natToBytesBE n v).length = n := by
  simp [natToBytesBE]

theorem natToBytesLE_length (n v : Nat) : (natToBytesLE n v).length = n := by
  simp [natToBytesLE]

/-- XOR-ing twice with the same (long enough) key stream is the identity. -/
theorem xorBytes_cancel (a b : List Nat) (h : a.length ≤ b.length) :
    xorBytes (xorBytes a b) b = a := by
  induction a generalizing b with
  | nil => simp [xorBytes]
  | cons x xs ih =>
    cases b with
    | nil => simp at h
    | cons y ys =>
      simp only [List.length_cons, Nat.add_le_add_iff_right] at h
      simp only [xorBytes, List.zipWith_cons_cons, List.cons.injEq]
      constructor
      · exact Nat.xor_cancel_right y x
      · simpa [xorBytes] using ih ys h

/-- XOR distributes over the split of the left operand. -/
theorem xorBytes_append (a b k : List Nat) (h : a.length ≤ k.length) :
    xorBytes (a ++ b) k = xorBytes a (k.take a.length) ++ xorBytes b (k.drop a.length) := by
  induction a generalizing k with
  | nil => simp [xorBytes]
  | cons x xs ih =>
    cases k with
    | nil => simp at h
    | cons y ys =>
      simp only [List.length_cons, Nat.add_le_add_iff_right] at h
      simp only [xorBytes, List.cons_append, List.zipWith_cons_cons, List.length_cons,
        List.take_succ_cons, List.drop_succ_cons]
      have := ih ys h
      simpa [xorBytes] using this

/-! ## The block-primitive interface and the mode engine

`blockcipher.py` (the ModeEngine of the spec) is imported by both wrappers
but is not part of the provided source tree; the definitions below are
modelled from the specification, sections 2-4 and 6.
-/

/-- Modelled from the spec: the BlockPrimitive contract of section 4.1
(`blockcipher.py` consumes the keyed primitive only through
`encryptBlock`/`decryptBlock`/`blockSize`). -/
structure BlockPrimitive where
  blockSize : Nat
  encryptBlock : List Nat → List Nat
  decryptBlock : List Nat → List Nat

/-- Modelled from the spec: the mode-dependent ChainState of section 3
(a tagged variant over the six modes; CBC/CFB/OFB hold one previous
block, CTR a counter cursor, XTS a tweak cursor). -/
inductive ChainState where
  | ecb : ChainState
  | cbc (prev : List Nat) : ChainState
  | cfb (prev : List Nat) : ChainState
  | ofb (prev : List Nat) : ChainState
  | ctr (n : Nat) : ChainState
  | xts (t : Nat) : ChainState
deriving DecidableEq, Repr

/-- Modelled from the spec: multiplication by the element alpha in
GF(2^128) (section 2, TweakSequence): a 1-bit left shift of the 128-bit
value with conditional XOR by the reduction polynomial 0x87 when a carry
occurs out of the top bit. -/
def mulAlpha (t : Nat) : Nat :=
  if 2 * t < 2 ^ 128 then 2 * t else Nat.xor (2 * t % 2 ^ 128) 0x87

/-- One XTS block transform at tweak value `t`:
`C = cipherBlock(P XOR tweakBytes) XOR tweakBytes` (spec section 4.6). -/
def xtsBlock (cipherBlock : List Nat → List Nat) (t : Nat) (blk : List Nat) : List Nat :=
  xorBytes (cipherBlock (xorBytes blk (natToBytesLE 16 t))) (natToBytesLE 16 t)

/-- Modelled from the spec: the per-block chaining step of each mode
(sections 4.2-4.6); `ed = true` encrypts, `ed = false` decrypts.
Returns the output block and the advanced chain state. -/
def stepBlock (prim : BlockPrimitive) (ed : Bool) :
    ChainState → List Nat → List Nat × ChainState
  | .ecb, blk =>
      ((if ed then prim.encryptBlock blk else prim.decryptBlock blk), .ecb)
  | .cbc prev, blk =>
      if ed then
        let c := prim.encryptBlock (xorBytes blk prev)
        (c, .cbc c)
      else
        (xorBytes (prim.decryptBlock blk) prev, .cbc blk)
  | .cfb prev, blk =>
      let k := prim.encryptBlock prev
      let out := xorBytes blk k
      (out, .cfb (if ed then out else blk))
  | .ofb prev, blk =>
      let k := prim.encryptBlock prev
      (xorBytes blk k, .ofb k)
  | .ctr n, blk =>
      let k := prim.encryptBlock (natToBytesBE prim.blockSize n)
      (xorBytes blk k, .ctr ((n + 1) % 2 ^ (8 * prim.blockSize)))
  | .xts t, blk =>
      ((xtsBlock (if ed then prim.encryptBlock else prim.decryptBlock) t blk),
        .xts (mulAlpha t))

/-- Modelled from the spec: the shared `consumeCompleteBlocks` step
(section 9, design notes; section 2 data flow): consume the buffered
input in `blockSize` chunks through the chaining step, returning the
produced output, the advanced chain state, and the unconsumed remainder
(shorter than one block). -/
def consumeBlocksAux (prim : BlockPrimitive) (ed : Bool) :
    Nat → ChainState → List Nat → List Nat × ChainState × List Nat
  | 0, st, data => ([], st, data)
  | fuel + 1, st, data =>
    if 0 < prim.blockSize ∧ prim.blockSize ≤ data.length then
      let r1 := stepBlock prim ed st (data.take prim.blockSize)
      let r2 := consumeBlocksAux prim ed fuel r1.2 (data.drop prim.blockSize)
      (r1.1 ++ r2.1, r2.2)
    else ([], st, data)

def consumeBlocks (prim : BlockPrimitive) (ed : Bool)
    (st : ChainState) (data : List Nat) : List Nat × ChainState × List Nat :=
  consumeBlocksAux prim ed data.length st data

theorem consumeBlocksAux_zero (prim : BlockPrimitive) (ed : Bool) (st : ChainState)
    (data : List Nat) : consumeBlocksAux prim ed 0 st data = ([], st, data) := rfl

theorem consumeBlocksAux_succ (prim : BlockPrimitive) (ed : Bool) (fuel : Nat)
    (st : ChainState) (data : List Nat) :
    consumeBlocksAux prim ed (fuel + 1) st data =
      if 0 < prim.blockSize ∧ prim.blockSize ≤ data.length then
        ((stepBlock prim ed st (data.take prim.blockSize)).1 ++
          (consumeBlocksAux prim ed fuel
            (stepBlock prim ed st (data.take prim.blockSize)).2
            (data.drop prim.blockSize)).1,
         (consumeBlocksAux prim ed fuel
            (stepBlock prim ed st (data.take prim.blockSize)).2
            (data.drop prim.blockSize)).2)
      else ([], st, data) := rfl

theorem consumeCond_nil (bs : Nat) : ¬(0 < bs ∧ bs ≤ ([] : List Nat).length) := by
  simp only [List.length_nil, Nat.le_zero]
  omega

/-- The fuel argument of `consumeBlocksAux` is irrelevant once it covers
the input length. -/
theorem consumeBlocksAux_mono (prim : BlockPrimitive) (ed : Bool) :
    ∀ f1 f2 (st : ChainState) (d : List Nat), d.length ≤ f1 → d.length ≤ f2 →
      consumeBlocksAux prim ed f1 st d = consumeBlocksAux prim ed f2 st d := by
  intro f1
  induction f1 with
  | zero =>
    intro f2 st d h1 h2
    have hd : d = [] := List.eq_nil_of_length_eq_zero (Nat.le_zero.mp h1)
    subst hd
    cases f2 with
    | zero => rfl
    | succ m =>
      rw [consumeBlocksAux_zero, consumeBlocksAux_succ,
        if_neg (consumeCond_nil prim.blockSize)]
  | succ n ih =>
    intro f2 st d h1 h2
    cases f2 with
    | zero =>
      have hd : d = [] := List.eq_nil_of_length_eq_zero (Nat.le_zero.mp h2)
      subst hd
      rw [consumeBlocksAux_zero, consumeBlocksAux_succ,
        if_neg (consumeCond_nil prim.blockSize)]
    | succ m =>
      rw [consumeBlocksAux_succ, consumeBlocksAux_succ]
      by_cases hc : 0 < prim.blockSize ∧ prim.blockSize ≤ d.length
      · rw [if_pos hc, if_pos hc]
        have hdl : (d.drop prim.blockSize).length ≤ n := by
          simp only [List.length_drop]
          omega
        have hdl2 : (d.drop prim.blockSize).length ≤ m := by
          simp only [List.length_drop]
          omega
        rw [ih m (stepBlock prim ed st (d.take prim.blockSize)).2
          (d.drop prim.blockSize) hdl hdl2]
      · rw [if_neg hc, if_neg hc]

/-- Modelled from the spec: the streaming ModeEngine state (section 3):
one primitive handle, the mode's chain state, and the carry buffer of
not-yet-processed input bytes. -/
structure Engine where
  prim : BlockPrimitive
  chain : ChainState
  cache : List Nat

/-- Modelled from the spec: one `encrypt`/`decrypt` call on the engine
(section 2 data flow): append the new data to the carry buffer, consume
complete blocks, return the produced bytes and retain the remainder. -/
def updateEngine (e : Engine) (ed : Bool) (data : List Nat) : List Nat × Engine :=
  let r := consumeBlocks e.prim ed e.chain (e.cache ++ data)
  (r.1, ⟨e.prim, r.2.1, r.2.2⟩)

/-- Feeding a sequence of pieces to successive calls on one engine,
concatenating the outputs. -/
def feedAll (e : Engine) (ed : Bool) : List (List Nat) → List Nat × Engine
  | [] => ([], e)
  | p :: ps =>
      let (o, e1) := updateEngine e ed p
      let (os, e2) := feedAll e1 ed ps
      (o ++ os, e2)

/-! ## Unfolding equations for `consumeBlocks` and the chunking lemmas -/

theorem consumeBlocks_step (prim : BlockPrimitive) (ed : Bool) (st : ChainState)
    (data : List Nat) (h0 : 0 < prim.blockSize) (hle : prim.blockSize ≤ data.length) :
    consumeBlocks prim ed st data =
      ((stepBlock prim ed st (data.take prim.blockSize)).1 ++
        (consumeBlocks prim ed (stepBlock prim ed st (data.take prim.blockSize)).2
          (data.drop prim.blockSize)).1,
       (consumeBlocks prim ed (stepBlock prim ed st (data.take prim.blockSize)).2
          (data.drop prim.blockSize)).2) := by
  show consumeBlocksAux prim ed data.length st data = _
  rw [consumeBlocksAux_mono prim ed data.length (data.length + 1) st data
    (Nat.le_refl _) (by omega)]
  rw [consumeBlocksAux_succ, if_pos (And.intro h0 hle)]
  rw [consumeBlocksAux_mono prim ed data.length (data.drop prim.blockSize).length
    (stepBlock prim ed st (data.take prim.blockSize)).2 (data.drop prim.blockSize)
    (by simp only [List.length_drop]; omega) (Nat.le_refl _)]
  rfl

theorem consumeBlocks_base (prim : BlockPrimitive) (ed : Bool) (st : ChainState)
    (data : List Nat) (h : ¬(0 < prim.blockSize ∧ prim.blockSize ≤ data.length)) :
    consumeBlocks prim ed st data = ([], st, data) := by
  show consumeBlocksAux prim ed data.length st data = _
  rw [consumeBlocksAux_mono prim ed data.length (data.length + 1) st data
    (Nat.le_refl _) (by omega)]
  rw [consumeBlocksAux_succ, if_neg h]

/-- Greedy block consumption composes across an append: consuming `a ++ b`
is consuming `a`, then consuming the leftover of `a` followed by `b`. -/
theorem consumeBlocks_append (prim : BlockPrimitive) (ed : Bool) (st : ChainState)
    (a b : List Nat) :
    consumeBlocks prim ed st (a ++ b) =
      ((consumeBlocks prim ed st a).1 ++
        (consumeBlocks prim ed (consumeBlocks prim ed st a).2.1
          ((consumeBlocks prim ed st a).2.2 ++ b)).1,
       (consumeBlocks prim ed (consumeBlocks prim ed st a).2.1
          ((consumeBlocks prim ed st a).2.2 ++ b)).2) := by
  by_cases hc : 0 < prim.blockSize ∧ prim.blockSize ≤ a.length
  · obtain ⟨h0, hle⟩ := hc
    have hlen : prim.blockSize ≤ (a ++ b).length := by
      simp only [List.length_append]; omega
    rw [consumeBlocks_step prim ed st (a ++ b) h0 hlen,
        consumeBlocks_step prim ed st a h0 hle]
    have htake : (a ++ b).take prim.blockSize = a.take prim.blockSize :=
      List.take_append_of_le_length hle
    have hdrop : (a ++ b).drop prim.blockSize = a.drop prim.blockSize ++ b :=
      List.drop_append_of_le_length hle
    rw [htake, hdrop]
    have ih := consumeBlocks_append prim ed
      (stepBlock prim ed st (a.take prim.blockSize)).2 (a.drop prim.blockSize) b
    rw [ih]
    simp only [List.append_assoc]
  · rw [consumeBlocks_base prim ed st a hc]
    simp only [List.nil_append]
termination_by a.length
decreasing_by
  simp only [List.length_drop]
  omega

/-- Two successive engine calls behave like one call on the concatenation. -/
theorem updateEngine_append (e : Engine) (ed : Bool) (d1 d2 : List Nat) :
    updateEngine e ed (d1 ++ d2) =
      ((updateEngine e ed d1).1 ++ (updateEngine (updateEngine e ed d1).2 ed d2).1,
        (updateEngine (updateEngine e ed d1).2 ed d2).2) := by
  simp only [updateEngine]
  rw [← List.append_assoc]
  rw [consumeBlocks_append e.prim ed e.chain (e.cache ++ d1) d2]

/-- A non-empty sequence of calls equals one call on the concatenation. -/
theorem feedAll_join_of_ne (ed : Bool) :
    ∀ (ps : List (List Nat)) (e : Engine), ps ≠ [] →
      feedAll e ed ps = updateEngine e ed ps.flatten
  | [], _, hne => absurd rfl hne
  | [p], e, _ => by
      simp [feedAll]
  | p :: q :: ps, e, _ => by
      show ((updateEngine e ed p).1 ++ (feedAll (updateEngine e ed p).2 ed (q :: ps)).1,
        (feedAll (updateEngine e ed p).2 ed (q :: ps)).2) = _
      rw [feedAll_join_of_ne ed (q :: ps) (updateEngine e ed p).2 (by simp)]
      simp only [List.flatten_cons]
      rw [updateEngine_append e ed p (q ++ ps.flatten)]

/-- A sample primitive used by concrete witnesses: 2-byte blocks,
encryption and decryption both reverse the block. -/
def revPrim : BlockPrimitive := ⟨2, List.reverse, List.reverse⟩

/-- C2: for every mode (every chain state) and both directions, feeding a
message to successive calls on one fresh engine as any sequence of
non-empty pieces produces outputs whose concatenation is byte-identical
to the single-call result on a fresh engine with identical parameters,
and leaves the engine in the identical state; in particular XTS tweak
progression advances by cumulative byte position across calls. -/
theorem C2_chunk_invariance (e : Engine) (ed : Bool) (ps : List (List Nat))
    (hfresh : e.cache = []) (hne : ∀ p ∈ ps, p ≠ []) :
    feedAll e ed ps = updateEngine e ed ps.flatten := by
  cases ps with
  | nil =>
      have hbase : consumeBlocks e.prim ed e.chain (e.cache ++ ([] : List (List Nat)).flatten) =
          ([], e.chain, e.cache ++ ([] : List (List Nat)).flatten) := by
        apply consumeBlocks_base
        intro hcontra
        rw [hfresh] at hcontra
        simp at hcontra
        omega
      show ([], e) = _
      simp only [updateEngine, hbase]
      rw [List.flatten_nil, List.append_nil, hfresh]
      rw [← hfresh]
  | cons p ps => exact feedAll_join_of_ne ed (p :: ps) e (by simp)

/-- Witness for C2 at a concrete engine: CBC over the sample primitive,
the message `[1,2,3,4,5]` split as `[1] ++ [2,3] ++ [4,5]`. -/
theorem C2_chunk_invariance_witness :
    feedAll ⟨revPrim, .cbc [7, 9], []⟩ true [[1], [2, 3], [4, 5]] =
      updateEngine ⟨revPrim, .cbc [7, 9], []⟩ true [[1], [2, 3], [4, 5]].flatten :=
  C2_chunk_invariance ⟨revPrim, .cbc [7, 9], []⟩ true [[1], [2, 3], [4, 5]]
    rfl (by decide)

/-! ## Whole-message processing (one logical message, final flush included) -/

/-- Modelled from the spec: final-flush handling of a trailing partial
block (sections 4.4, 4.5, 7): for the keystream modes CFB/OFB/CTR the
last keystream block is truncated to the remaining byte count before
XOR; ECB and CBC flush nothing (their compatible messages are
block-aligned, padding is out of scope). -/
def finalFlush (prim : BlockPrimitive) (st : ChainState) (rem : List Nat) : List Nat :=
  match st with
  | .cfb prev => xorBytes rem (prim.encryptBlock prev)
  | .ofb prev => xorBytes rem (prim.encryptBlock prev)
  | .ctr n => xorBytes rem (prim.encryptBlock (natToBytesBE prim.blockSize n))
  | _ => []

/-- Whole-message processing for the non-XTS modes: consume all complete
blocks, then flush the remainder. -/
def streamCrypt (prim : BlockPrimitive) (ed : Bool) (st : ChainState) (m : List Nat) :
    List Nat :=
  let r := consumeBlocks prim ed st m
  r.1 ++ finalFlush prim r.2.1 r.2.2

/-- Modelled from the spec: XTS processing of one whole data unit
(section 4.6): 16-byte blocks under successive tweaks; a trailing
fragment (the data unit being at least `blockSize + 1` bytes and not a
multiple of 16) is covered by ciphertext stealing between the final
full block and the fragment; fewer than 16 total bytes is the
`InsufficientDataForXTS` error case (section 7), returned unchanged
here as the claims never reach it. `ed = true` encrypts. -/
def xtsProcess (prim : BlockPrimitive) (ed : Bool) (t : Nat) (m : List Nat) : List Nat :=
  if m.length < 16 then m
  else if m.length = 16 then
    xtsBlock (if ed then prim.encryptBlock else prim.decryptBlock) t m
  else if m.length < 32 then
    let r := m.length - 16
    if ed then
      let cc := xtsBlock prim.encryptBlock t (m.take 16)
      xtsBlock prim.encryptBlock (mulAlpha t) (m.drop 16 ++ cc.drop r) ++ cc.take r
    else
      let b := xtsBlock prim.decryptBlock (mulAlpha t) (m.take 16)
      xtsBlock prim.decryptBlock t (m.drop 16 ++ b.drop r) ++ b.take r
  else
    xtsBlock (if ed then prim.encryptBlock else prim.decryptBlock) t (m.take 16) ++
      xtsProcess prim ed (mulAlpha t) (m.drop 16)
termination_by m.length
decreasing_by
  simp only [List.length_drop]
  omega

/-- Modelled from the spec: processing one whole logical message on a
mode engine, final flush included (sections 2, 4 and 7): XTS goes
through `xtsProcess`, every other mode consumes complete blocks and
flushes the trailing partial block. -/
def messageCrypt (prim : BlockPrimitive) (ed : Bool) (st : ChainState) (m : List Nat) :
    List Nat :=
  match st with
  | .xts t => xtsProcess prim ed t m
  | st => streamCrypt prim ed st m

/-- Modelled from the spec: the chain-state well-formedness invariants of
section 3: CBC/CFB/OFB hold one `blockSize`-byte previous block; XTS
works on 16-byte blocks. -/
def chainWF (bs : Nat) : ChainState → Prop
  | .ecb => True
  | .cbc prev => prev.length = bs
  | .cfb prev => prev.length = bs
  | .ofb prev => prev.length = bs
  | .ctr _ => True
  | .xts _ => bs = 16

instance (bs : Nat) (st : ChainState) : Decidable (chainWF bs st) := by
  cases st <;> simp only [chainWF] <;> infer_instance

/-- Modelled from the spec: per-mode message-length compatibility
(section 8): a multiple of `blockSize` for ECB/CBC, arbitrary for
CFB/OFB/CTR, at least one block (16 bytes) for XTS. -/
def lenCompatible (bs : Nat) : ChainState → Nat → Prop
  | .ecb, n => bs ∣ n
  | .cbc _, n => bs ∣ n
  | .cfb _, _ => True
  | .ofb _, _ => True
  | .ctr _, _ => True
  | .xts _, n => 16 ≤ n

instance (bs : Nat) (st : ChainState) (n : Nat) : Decidable (lenCompatible bs st n) := by
  cases st <;> simp only [lenCompatible] <;> infer_instance

/-! ## Round-trip lemmas, mode by mode -/

theorem streamCrypt_base (prim : BlockPrimitive) (ed : Bool) (st : ChainState)
    (m : List Nat) (h : ¬(0 < prim.blockSize ∧ prim.blockSize ≤ m.length)) :
    streamCrypt prim ed st m = finalFlush prim st m := by
  simp only [streamCrypt, consumeBlocks_base prim ed st m h, List.nil_append]

theorem streamCrypt_step (prim : BlockPrimitive) (ed : Bool) (st : ChainState)
    (m : List Nat) (h0 : 0 < prim.blockSize) (hle : prim.blockSize ≤ m.length) :
    streamCrypt prim ed st m =
      (stepBlock prim ed st (m.take prim.blockSize)).1 ++
        streamCrypt prim ed (stepBlock prim ed st (m.take prim.blockSize)).2
          (m.drop prim.blockSize) := by
  simp only [streamCrypt, consumeBlocks_step prim ed st m h0 hle, List.append_assoc]

theorem take_length_of_le {α : Type} (m : List α) (bs : Nat) (h : bs ≤ m.length) :
    (m.take bs).length = bs := by
  simp [List.length_take, Nat.min_eq_left h]

theorem streamCrypt_nil (prim : BlockPrimitive) (ed : Bool) (st : ChainState) :
    streamCrypt prim ed st [] = finalFlush prim st [] := by
  apply streamCrypt_base
  intro hcontra
  obtain ⟨h1, h2⟩ := hcontra
  simp at h2
  omega

theorem finalFlush_nil (prim : BlockPrimitive) (st : ChainState) :
    finalFlush prim st [] = [] := by
  cases st <;> simp [finalFlush, xorBytes]

/-- ECB round trip (spec section 4.2): decrypting the encryption of a
block-aligned message restores it. -/
theorem ecb_roundtrip (prim : BlockPrimitive) (hbs : 0 < prim.blockSize)
    (hE : ∀ b : List Nat, b.length = prim.blockSize →
      (prim.encryptBlock b).length = prim.blockSize)
    (hInv : ∀ b : List Nat, b.length = prim.blockSize →
      prim.decryptBlock (prim.encryptBlock b) = b) :
    ∀ fuel m, m.length ≤ fuel → prim.blockSize ∣ m.length →
      streamCrypt prim false .ecb (streamCrypt prim true .ecb m) = m := by
  intro fuel
  induction fuel with
  | zero =>
    intro m hm hdvd
    have : m = [] := List.eq_nil_of_length_eq_zero (Nat.le_zero.mp hm)
    subst this
    rw [streamCrypt_nil prim true, finalFlush_nil, streamCrypt_nil prim false,
      finalFlush_nil]
  | succ n ih =>
    intro m hm hdvd
    by_cases hlen : prim.blockSize ≤ m.length
    · rw [streamCrypt_step prim true _ m hbs hlen]
      have htk : (m.take prim.blockSize).length = prim.blockSize :=
        take_length_of_le m prim.blockSize hlen
      have hstep : stepBlock prim true ChainState.ecb (m.take prim.blockSize) =
          (prim.encryptBlock (m.take prim.blockSize), .ecb) := by
        simp [stepBlock]
      rw [hstep]
      have hclen : (prim.encryptBlock (m.take prim.blockSize)).length = prim.blockSize :=
        hE _ htk
      have hdec : prim.blockSize ≤
          (prim.encryptBlock (m.take prim.blockSize) ++
            streamCrypt prim true ChainState.ecb (m.drop prim.blockSize)).length := by
        simp only [List.length_append, hclen]
        omega
      rw [streamCrypt_step prim false _ _ hbs hdec]
      rw [List.take_left' hclen, List.drop_left' hclen]
      have hstepd : stepBlock prim false ChainState.ecb
          (prim.encryptBlock (m.take prim.blockSize)) =
          (prim.decryptBlock (prim.encryptBlock (m.take prim.blockSize)), .ecb) := by
        simp [stepBlock]
      rw [hstepd]
      have hrest : streamCrypt prim false ChainState.ecb
          (streamCrypt prim true ChainState.ecb (m.drop prim.blockSize)) =
          m.drop prim.blockSize := by
        apply ih
        · simp only [List.length_drop]; omega
        · simp only [List.length_drop]
          exact Nat.dvd_sub' hdvd dvd_rfl
      simp only [hrest, hInv _ htk, List.take_append_drop]
    · have hz : m.length = 0 :=
        Nat.eq_zero_of_dvd_of_lt hdvd (Nat.lt_of_not_le hlen) |> fun h => h
      have : m = [] := List.eq_nil_of_length_eq_zero hz
      subst this
      rw [streamCrypt_nil prim true, finalFlush_nil, streamCrypt_nil prim false,
        finalFlush_nil]

/-- CBC round trip (spec section 4.3): with the same IV, decrypting the
encryption of a block-aligned message restores it. -/
theorem cbc_roundtrip (prim : BlockPrimitive) (hbs : 0 < prim.blockSize)
    (hE : ∀ b : List Nat, b.length = prim.blockSize →
      (prim.encryptBlock b).length = prim.blockSize)
    (hInv : ∀ b : List Nat, b.length = prim.blockSize →
      prim.decryptBlock (prim.encryptBlock b) = b) :
    ∀ fuel m prev, m.length ≤ fuel → prev.length = prim.blockSize →
      prim.blockSize ∣ m.length →
      streamCrypt prim false (.cbc prev) (streamCrypt prim true (.cbc prev) m) = m := by
  intro fuel
  induction fuel with
  | zero =>
    intro m prev hm hprev hdvd
    have : m = [] := List.eq_nil_of_length_eq_zero (Nat.le_zero.mp hm)
    subst this
    rw [streamCrypt_nil prim true, finalFlush_nil, streamCrypt_nil prim false,
      finalFlush_nil]
  | succ n ih =>
    intro m prev hm hprev hdvd
    by_cases hlen : prim.blockSize ≤ m.length
    · have htk : (m.take prim.blockSize).length = prim.blockSize :=
        take_length_of_le m prim.blockSize hlen
      have hxlen : (xorBytes (m.take prim.blockSize) prev).length = prim.blockSize := by
        rw [xorBytes_length, htk, hprev, Nat.min_self]
      have hclen : (prim.encryptBlock (xorBytes (m.take prim.blockSize) prev)).length =
          prim.blockSize := hE _ hxlen
      rw [streamCrypt_step prim true _ m hbs hlen]
      have hstep : stepBlock prim true (ChainState.cbc prev) (m.take prim.blockSize) =
          (prim.encryptBlock (xorBytes (m.take prim.blockSize) prev),
            .cbc (prim.encryptBlock (xorBytes (m.take prim.blockSize) prev))) := by
        simp [stepBlock]
      rw [hstep]
      have hdec : prim.blockSize ≤
          (prim.encryptBlock (xorBytes (m.take prim.blockSize) prev) ++
            streamCrypt prim true
              (ChainState.cbc (prim.encryptBlock (xorBytes (m.take prim.blockSize) prev)))
              (m.drop prim.blockSize)).length := by
        simp only [List.length_append, hclen]
        omega
      rw [streamCrypt_step prim false _ _ hbs hdec]
      rw [List.take_left' hclen, List.drop_left' hclen]
      have hstepd : stepBlock prim false (ChainState.cbc prev)
          (prim.encryptBlock (xorBytes (m.take prim.blockSize) prev)) =
          (xorBytes (prim.decryptBlock
              (prim.encryptBlock (xorBytes (m.take prim.blockSize) prev))) prev,
            .cbc (prim.encryptBlock (xorBytes (m.take prim.blockSize) prev))) := by
        simp [stepBlock]
      rw [hstepd]
      have hrest : streamCrypt prim false
          (ChainState.cbc (prim.encryptBlock (xorBytes (m.take prim.blockSize) prev)))
          (streamCrypt prim true
            (ChainState.cbc (prim.encryptBlock (xorBytes (m.take prim.blockSize) prev)))
            (m.drop prim.blockSize)) = m.drop prim.blockSize := by
        apply ih
        · simp only [List.length_drop]; omega
        · exact hclen
        · simp only [List.length_drop]
          exact Nat.dvd_sub' hdvd dvd_rfl
      rw [hInv _ hxlen, hrest]
      have hcancel : xorBytes (xorBytes (m.take prim.blockSize) prev) prev =
          m.take prim.blockSize := by
        apply xorBytes_cancel
        rw [htk, hprev]
      rw [hcancel]
      simp only [List.take_append_drop]
    · have hz : m.length = 0 := Nat.eq_zero_of_dvd_of_lt hdvd (Nat.lt_of_not_le hlen)
      have : m = [] := List.eq_nil_of_length_eq_zero hz
      subst this
      rw [streamCrypt_nil prim true, finalFlush_nil, streamCrypt_nil prim false,
        finalFlush_nil]

/-- CFB round trip (spec section 4.4): with the same IV, decryption
recomputes the keystream from the ciphertext; arbitrary message length
(a trailing partial block uses a truncated keystream at the final
flush). -/
theorem cfb_roundtrip (prim : BlockPrimitive) (hbs : 0 < prim.blockSize)
    (hE : ∀ b : List Nat, b.length = prim.blockSize →
      (prim.encryptBlock b).length = prim.blockSize) :
    ∀ fuel m prev, m.length ≤ fuel → prev.length = prim.blockSize →
      streamCrypt prim false (.cfb prev) (streamCrypt prim true (.cfb prev) m) = m := by
  intro fuel
  induction fuel with
  | zero =>
    intro m prev hm hprev
    have : m = [] := List.eq_nil_of_length_eq_zero (Nat.le_zero.mp hm)
    subst this
    rw [streamCrypt_nil prim true, finalFlush_nil, streamCrypt_nil prim false,
      finalFlush_nil]
  | succ n ih =>
    intro m prev hm hprev
    have hklen : (prim.encryptBlock prev).length = prim.blockSize := hE _ hprev
    by_cases hlen : prim.blockSize ≤ m.length
    · have htk : (m.take prim.blockSize).length = prim.blockSize :=
        take_length_of_le m prim.blockSize hlen
      have holen : (xorBytes (m.take prim.blockSize) (prim.encryptBlock prev)).length =
          prim.blockSize := by
        rw [xorBytes_length, htk, hklen, Nat.min_self]
      rw [streamCrypt_step prim true _ m hbs hlen]
      have hstep : stepBlock prim true (ChainState.cfb prev) (m.take prim.blockSize) =
          (xorBytes (m.take prim.blockSize) (prim.encryptBlock prev),
            .cfb (xorBytes (m.take prim.blockSize) (prim.encryptBlock prev))) := by
        simp [stepBlock]
      rw [hstep]
      have hdec : prim.blockSize ≤
          (xorBytes (m.take prim.blockSize) (prim.encryptBlock prev) ++
            streamCrypt prim true
              (ChainState.cfb (xorBytes (m.take prim.blockSize) (prim.encryptBlock prev)))
              (m.drop prim.blockSize)).length := by
        simp only [List.length_append, holen]
        omega
      rw [streamCrypt_step prim false _ _ hbs hdec]
      rw [List.take_left' holen, List.drop_left' holen]
      have hstepd : stepBlock prim false (ChainState.cfb prev)
          (xorBytes (m.take prim.blockSize) (prim.encryptBlock prev)) =
          (xorBytes (xorBytes (m.take prim.blockSize) (prim.encryptBlock prev))
              (prim.encryptBlock prev),
            .cfb (xorBytes (m.take prim.blockSize) (prim.encryptBlock prev))) := by
        simp [stepBlock]
      rw [hstepd]
      have hcancel : xorBytes (xorBytes (m.take prim.blockSize) (prim.encryptBlock prev))
          (prim.encryptBlock prev) = m.take prim.blockSize := by
        apply xorBytes_cancel
        rw [htk, hklen]
      rw [hcancel]
      have hrest := ih (m.drop prim.blockSize)
        (xorBytes (m.take prim.blockSize) (prim.encryptBlock prev))
        (by simp only [List.length_drop]; omega) holen
      rw [hrest]
      simp only [List.take_append_drop]
    · have hnc : ¬(0 < prim.blockSize ∧ prim.blockSize ≤ m.length) := by
        intro hcontra; exact hlen hcontra.2
      rw [streamCrypt_base prim true _ m hnc]
      have henc : finalFlush prim (ChainState.cfb prev) m =
          xorBytes m (prim.encryptBlock prev) := rfl
      rw [henc]
      have hmlen : (xorBytes m (prim.encryptBlock prev)).length = m.length := by
        rw [xorBytes_length, hklen]
        omega
      have hncd : ¬(0 < prim.blockSize ∧ prim.blockSize ≤
          (xorBytes m (prim.encryptBlock prev)).length) := by
        intro hcontra
        rw [hmlen] at hcontra
        exact hlen hcontra.2
      rw [streamCrypt_base prim false _ _ hncd]
      have hdecf : finalFlush prim (ChainState.cfb prev)
          (xorBytes m (prim.encryptBlock prev)) =
          xorBytes (xorBytes m (prim.encryptBlock prev)) (prim.encryptBlock prev) := rfl
      rw [hdecf]
      apply xorBytes_cancel
      rw [hklen]
      omega

/-- OFB round trip (spec section 4.4): encryption and decryption are the
same XOR with the keystream generated from the IV; arbitrary length. -/
theorem ofb_roundtrip (prim : BlockPrimitive) (hbs : 0 < prim.blockSize)
    (hE : ∀ b : List Nat, b.length = prim.blockSize →
      (prim.encryptBlock b).length = prim.blockSize) :
    ∀ fuel m prev, m.length ≤ fuel → prev.length = prim.blockSize →
      streamCrypt prim false (.ofb prev) (streamCrypt prim true (.ofb prev) m) = m := by
  intro fuel
  induction fuel with
  | zero =>
    intro m prev hm hprev
    have : m = [] := List.eq_nil_of_length_eq_zero (Nat.le_zero.mp hm)
    subst this
    rw [streamCrypt_nil prim true, finalFlush_nil, streamCrypt_nil prim false,
      finalFlush_nil]
  | succ n ih =>
    intro m prev hm hprev
    have hklen : (prim.encryptBlock prev).length = prim.blockSize := hE _ hprev
    by_cases hlen : prim.blockSize ≤ m.length
    · have htk : (m.take prim.blockSize).length = prim.blockSize :=
        take_length_of_le m prim.blockSize hlen
      have holen : (xorBytes (m.take prim.blockSize) (prim.encryptBlock prev)).length =
          prim.blockSize := by
        rw [xorBytes_length, htk, hklen, Nat.min_self]
      rw [streamCrypt_step prim true _ m hbs hlen]
      have hstep : stepBlock prim true (ChainState.ofb prev) (m.take prim.blockSize) =
          (xorBytes (m.take prim.blockSize) (prim.encryptBlock prev),
            .ofb (prim.encryptBlock prev)) := by
        simp [stepBlock]
      rw [hstep]
      have hdec : prim.blockSize ≤
          (xorBytes (m.take prim.blockSize) (prim.encryptBlock prev) ++
            streamCrypt prim true (ChainState.ofb (prim.encryptBlock prev))
              (m.drop prim.blockSize)).length := by
        simp only [List.length_append, holen]
        omega
      rw [streamCrypt_step prim false _ _ hbs hdec]
      rw [List.take_left' holen, List.drop_left' holen]
      have hstepd : stepBlock prim false (ChainState.ofb prev)
          (xorBytes (m.take prim.blockSize) (prim.encryptBlock prev)) =
          (xorBytes (xorBytes (m.take prim.blockSize) (prim.encryptBlock prev))
              (prim.encryptBlock prev),
            .ofb (prim.encryptBlock prev)) := by
        simp [stepBlock]
      rw [hstepd]
      have hcancel : xorBytes (xorBytes (m.take prim.blockSize) (prim.encryptBlock prev))
          (prim.encryptBlock prev) = m.take prim.blockSize := by
        apply xorBytes_cancel
        rw [htk, hklen]
      rw [hcancel]
      have hrest := ih (m.drop prim.blockSize) (prim.encryptBlock prev)
        (by simp only [List.length_drop]; omega) hklen
      rw [hrest]
      simp only [List.take_append_drop]
    · have hnc : ¬(0 < prim.blockSize ∧ prim.blockSize ≤ m.length) := by
        intro hcontra; exact hlen hcontra.2
      rw [streamCrypt_base prim true _ m hnc]
      have henc : finalFlush prim (ChainState.ofb prev) m =
          xorBytes m (prim.encryptBlock prev) := rfl
      rw [henc]
      have hmlen : (xorBytes m (prim.encryptBlock prev)).length = m.length := by
        rw [xorBytes_length, hklen]
        omega
      have hncd : ¬(0 < prim.blockSize ∧ prim.blockSize ≤
          (xorBytes m (prim.encryptBlock prev)).length) := by
        intro hcontra
        rw [hmlen] at hcontra
        exact hlen hcontra.2
      rw [streamCrypt_base prim false _ _ hncd]
      have hdecf : finalFlush prim (ChainState.ofb prev)
          (xorBytes m (prim.encryptBlock prev)) =
          xorBytes (xorBytes m (prim.encryptBlock prev)) (prim.encryptBlock prev) := rfl
      rw [hdecf]
      apply xorBytes_cancel
      rw [hklen]
      omega

/-- CTR round trip (spec section 4.5): the same initial counter value
regenerates the same keystream; arbitrary length, the final keystream
block truncated to the remaining bytes. -/
theorem ctr_roundtrip (prim : BlockPrimitive) (hbs : 0 < prim.blockSize)
    (hE : ∀ b : List Nat, b.length = prim.blockSize →
      (prim.encryptBlock b).length = prim.blockSize) :
    ∀ fuel m cnt, m.length ≤ fuel →
      streamCrypt prim false (.ctr cnt) (streamCrypt prim true (.ctr cnt) m) = m := by
  intro fuel
  induction fuel with
  | zero =>
    intro m cnt hm
    have : m = [] := List.eq_nil_of_length_eq_zero (Nat.le_zero.mp hm)
    subst this
    rw [streamCrypt_nil prim true, finalFlush_nil, streamCrypt_nil prim false,
      finalFlush_nil]
  | succ n ih =>
    intro m cnt hm
    have hklen : (prim.encryptBlock (natToBytesBE prim.blockSize cnt)).length =
        prim.blockSize := hE _ (natToBytesBE_length _ _)
    by_cases hlen : prim.blockSize ≤ m.length
    · have htk : (m.take prim.blockSize).length = prim.blockSize :=
        take_length_of_le m prim.blockSize hlen
      have holen : (xorBytes (m.take prim.blockSize)
          (prim.encryptBlock (natToBytesBE prim.blockSize cnt))).length =
          prim.blockSize := by
        rw [xorBytes_length, htk, hklen, Nat.min_self]
      rw [streamCrypt_step prim true _ m hbs hlen]
      have hstep : stepBlock prim true (ChainState.ctr cnt) (m.take prim.blockSize) =
          (xorBytes (m.take prim.blockSize)
              (prim.encryptBlock (natToBytesBE prim.blockSize cnt)),
            .ctr ((cnt + 1) % 2 ^ (8 * prim.blockSize))) := by
        simp [stepBlock]
      rw [hstep]
      have hdec : prim.blockSize ≤
          (xorBytes (m.take prim.blockSize)
              (prim.encryptBlock (natToBytesBE prim.blockSize cnt)) ++
            streamCrypt prim true (ChainState.ctr ((cnt + 1) % 2 ^ (8 * prim.blockSize)))
              (m.drop prim.blockSize)).length := by
        simp only [List.length_append, holen]
        omega
      rw [streamCrypt_step prim false _ _ hbs hdec]
      rw [List.take_left' holen, List.drop_left' holen]
      have hstepd : stepBlock prim false (ChainState.ctr cnt)
          (xorBytes (m.take prim.blockSize)
            (prim.encryptBlock (natToBytesBE prim.blockSize cnt))) =
          (xorBytes (xorBytes (m.take prim.blockSize)
              (prim.encryptBlock (natToBytesBE prim.blockSize cnt)))
              (prim.encryptBlock (natToBytesBE prim.blockSize cnt)),
            .ctr ((cnt + 1) % 2 ^ (8 * prim.blockSize))) := by
        simp [stepBlock]
      rw [hstepd]
      have hcancel : xorBytes (xorBytes (m.take prim.blockSize)
          (prim.encryptBlock (natToBytesBE prim.blockSize cnt)))
          (prim.encryptBlock (natToBytesBE prim.blockSize cnt)) = m.take prim.blockSize := by
        apply xorBytes_cancel
        rw [htk, hklen]
      rw [hcancel]
      have hrest := ih (m.drop prim.blockSize) ((cnt + 1) % 2 ^ (8 * prim.blockSize))
        (by simp only [List.length_drop]; omega)
      rw [hrest]
      simp only [List.take_append_drop]
    · have hnc : ¬(0 < prim.blockSize ∧ prim.blockSize ≤ m.length) := by
        intro hcontra; exact hlen hcontra.2
      rw [streamCrypt_base prim true _ m hnc]
      have henc : finalFlush prim (ChainState.ctr cnt) m =
          xorBytes m (prim.encryptBlock (natToBytesBE prim.blockSize cnt)) := rfl
      rw [henc]
      have hmlen : (xorBytes m
          (prim.encryptBlock (natToBytesBE prim.blockSize cnt))).length = m.length := by
        rw [xorBytes_length, hklen]
        omega
      have hncd : ¬(0 < prim.blockSize ∧ prim.blockSize ≤
          (xorBytes m (prim.encryptBlock (natToBytesBE prim.blockSize cnt))).length) := by
        intro hcontra
        rw [hmlen] at hcontra
        exact hlen hcontra.2
      rw [streamCrypt_base prim false _ _ hncd]
      have hdecf : finalFlush prim (ChainState.ctr cnt)
          (xorBytes m (prim.encryptBlock (natToBytesBE prim.blockSize cnt))) =
          xorBytes (xorBytes m (prim.encryptBlock (natToBytesBE prim.blockSize cnt)))
            (prim.encryptBlock (natToBytesBE prim.blockSize cnt)) := rfl
      rw [hdecf]
      apply xorBytes_cancel
      rw [hklen]
      omega

/-! ## XTS lemmas -/

theorem xtsBlock_length (cb : List Nat → List Nat) (t : Nat) (b : List Nat)
    (hcb : ∀ x : List Nat, x.length = 16 → (cb x).length = 16) (hb : b.length = 16) :
    (xtsBlock cb t b).length = 16 := by
  have h1 : (xorBytes b (natToBytesLE 16 t)).length = 16 := by
    rw [xorBytes_length, hb, natToBytesLE_length, Nat.min_self]
  rw [xtsBlock, xorBytes_length, hcb _ h1, natToBytesLE_length, Nat.min_self]

theorem xtsBlock_rt (prim : BlockPrimitive)
    (hE16 : ∀ x : List Nat, x.length = 16 → (prim.encryptBlock x).length = 16)
    (hInv16 : ∀ x : List Nat, x.length = 16 →
      prim.decryptBlock (prim.encryptBlock x) = x)
    (t : Nat) (b : List Nat) (hb : b.length = 16) :
    xtsBlock prim.decryptBlock t (xtsBlock prim.encryptBlock t b) = b := by
  have h1 : (xorBytes b (natToBytesLE 16 t)).length = 16 := by
    rw [xorBytes_length, hb, natToBytesLE_length, Nat.min_self]
  have h2 : (prim.encryptBlock (xorBytes b (natToBytesLE 16 t))).length = 16 := hE16 _ h1
  rw [xtsBlock, xtsBlock]
  rw [xorBytes_cancel _ _ (by rw [h2, natToBytesLE_length])]
  rw [hInv16 _ h1]
  exact xorBytes_cancel _ _ (by rw [hb, natToBytesLE_length])

theorem xtsProcess_lt16 (prim : BlockPrimitive) (ed : Bool) (t : Nat) (m : List Nat)
    (h : m.length < 16) : xtsProcess prim ed t m = m := by
  rw [xtsProcess]
  simp [h]

theorem xtsProcess_eq16 (prim : BlockPrimitive) (ed : Bool) (t : Nat) (m : List Nat)
    (h : m.length = 16) :
    xtsProcess prim ed t m =
      xtsBlock (if ed then prim.encryptBlock else prim.decryptBlock) t m := by
  rw [xtsProcess]
  simp [h]

theorem xtsProcess_steal_enc (prim : BlockPrimitive) (t : Nat) (m : List Nat)
    (h1 : 16 < m.length) (h2 : m.length < 32) :
    xtsProcess prim true t m =
      xtsBlock prim.encryptBlock (mulAlpha t)
        (m.drop 16 ++ (xtsBlock prim.encryptBlock t (m.take 16)).drop (m.length - 16)) ++
      (xtsBlock prim.encryptBlock t (m.take 16)).take (m.length - 16) := by
  rw [xtsProcess]
  simp [show ¬ m.length < 16 by omega, show ¬ m.length = 16 by omega, h2]

theorem xtsProcess_steal_dec (prim : BlockPrimitive) (t : Nat) (m : List Nat)
    (h1 : 16 < m.length) (h2 : m.length < 32) :
    xtsProcess prim false t m =
      xtsBlock prim.decryptBlock t
        (m.drop 16 ++
          (xtsBlock prim.decryptBlock (mulAlpha t) (m.take 16)).drop (m.length - 16)) ++
      (xtsBlock prim.decryptBlock (mulAlpha t) (m.take 16)).take (m.length - 16) := by
  rw [xtsProcess]
  simp [show ¬ m.length < 16 by omega, show ¬ m.length = 16 by omega, h2]

theorem xtsProcess_ge32 (prim : BlockPrimitive) (ed : Bool) (t : Nat) (m : List Nat)
    (h : 32 ≤ m.length) :
    xtsProcess prim ed t m =
      xtsBlock (if ed then prim.encryptBlock else prim.decryptBlock) t (m.take 16) ++
        xtsProcess prim ed (mulAlpha t) (m.drop 16) := by
  rw [xtsProcess]
  simp [show ¬ m.length < 16 by omega, show ¬ m.length = 16 by omega,
    show ¬ m.length < 32 by omega]

/-- XTS preserves the byte length of the data unit (no padding expansion,
spec sections 4.6 and 8). -/
theorem xtsProcess_length (prim : BlockPrimitive) (ed : Bool)
    (hE16 : ∀ x : List Nat, x.length = 16 → (prim.encryptBlock x).length = 16)
    (hD16 : ∀ x : List Nat, x.length = 16 → (prim.decryptBlock x).length = 16) :
    ∀ fuel m t, m.length ≤ fuel →
      (xtsProcess prim ed t m).length = m.length := by
  intro fuel
  induction fuel with
  | zero =>
    intro m t hm
    have : m = [] := List.eq_nil_of_length_eq_zero (Nat.le_zero.mp hm)
    subst this
    rw [xtsProcess_lt16 prim ed t [] (by simp)]
  | succ n ih =>
    intro m t hm
    have hcb : ∀ x : List Nat, x.length = 16 →
        ((if ed then prim.encryptBlock else prim.decryptBlock) x).length = 16 := by
      cases ed <;> simpa using fun x hx => by
        first
        | exact hD16 x hx
        | exact hE16 x hx
    by_cases hlt : m.length < 16
    · rw [xtsProcess_lt16 prim ed t m hlt]
    by_cases heq : m.length = 16
    · rw [xtsProcess_eq16 prim ed t m heq]
      rw [xtsBlock_length _ t m hcb heq, heq]
    by_cases hlt32 : m.length < 32
    · have h1 : 16 < m.length := by omega
      have htk : (m.take 16).length = 16 := take_length_of_le m 16 (by omega)
      cases ed with
      | true =>
        have hcc : (xtsBlock prim.encryptBlock t (m.take 16)).length = 16 :=
          xtsBlock_length _ t _ hE16 htk
        rw [xtsProcess_steal_enc prim t m h1 hlt32]
        have harg : (m.drop 16 ++
            (xtsBlock prim.encryptBlock t (m.take 16)).drop (m.length - 16)).length = 16 := by
          simp only [List.length_append, List.length_drop, hcc]
          omega
        rw [List.length_append, xtsBlock_length _ _ _ hE16 harg, List.length_take, hcc]
        omega
      | false =>
        have hcc : (xtsBlock prim.decryptBlock (mulAlpha t) (m.take 16)).length = 16 :=
          xtsBlock_length _ _ _ hD16 htk
        rw [xtsProcess_steal_dec prim t m h1 hlt32]
        have harg : (m.drop 16 ++
            (xtsBlock prim.decryptBlock (mulAlpha t) (m.take 16)).drop
              (m.length - 16)).length = 16 := by
          simp only [List.length_append, List.length_drop, hcc]
          omega
        rw [List.length_append, xtsBlock_length _ _ _ hD16 harg, List.length_take, hcc]
        omega
    · have h32 : 32 ≤ m.length := by omega
      have htk : (m.take 16).length = 16 := take_length_of_le m 16 (by omega)
      rw [xtsProcess_ge32 prim ed t m h32]
      rw [List.length_append, xtsBlock_length _ t _ hcb htk,
        ih (m.drop 16) (mulAlpha t) (by simp only [List.length_drop]; omega)]
      simp only [List.length_drop]
      omega

/-- XTS round trip with ciphertext stealing (spec section 4.6): for any
data unit of at least one block, decrypting the encryption under the
same tweak seed restores the data unit. -/
theorem xts_roundtrip (prim : BlockPrimitive)
    (hE16 : ∀ x : List Nat, x.length = 16 → (prim.encryptBlock x).length = 16)
    (hD16 : ∀ x : List Nat, x.length = 16 → (prim.decryptBlock x).length = 16)
    (hInv16 : ∀ x : List Nat, x.length = 16 →
      prim.decryptBlock (prim.encryptBlock x) = x) :
    ∀ fuel m t, m.length ≤ fuel → 16 ≤ m.length →
      xtsProcess prim false t (xtsProcess prim true t m) = m := by
  intro fuel
  induction fuel with
  | zero =>
    intro m t hm h16
    omega
  | succ n ih =>
    intro m t hm h16
    by_cases heq : m.length = 16
    · rw [xtsProcess_eq16 prim true t m heq]
      rw [if_pos rfl]
      have hlen : (xtsBlock prim.encryptBlock t m).length = 16 :=
        xtsBlock_length _ t m hE16 heq
      rw [xtsProcess_eq16 prim false t _ hlen]
      rw [if_neg (by simp)]
      exact xtsBlock_rt prim hE16 hInv16 t m heq
    by_cases hlt32 : m.length < 32
    · -- ciphertext stealing case: one full block plus a fragment
      have h1 : 16 < m.length := by omega
      have htk : (m.take 16).length = 16 := take_length_of_le m 16 (by omega)
      have hmdrop : (m.drop 16).length = m.length - 16 := List.length_drop 16 m
      have hr1 : 0 < m.length - 16 := by omega
      have hr2 : m.length - 16 < 16 := by omega
      have hcc : (xtsBlock prim.encryptBlock t (m.take 16)).length = 16 :=
        xtsBlock_length _ t _ hE16 htk
      have harg : (m.drop 16 ++
          (xtsBlock prim.encryptBlock t (m.take 16)).drop (m.length - 16)).length = 16 := by
        simp only [List.length_append, List.length_drop, hcc]
        omega
      have hC0 : (xtsBlock prim.encryptBlock (mulAlpha t)
          (m.drop 16 ++ (xtsBlock prim.encryptBlock t (m.take 16)).drop
            (m.length - 16))).length = 16 :=
        xtsBlock_length _ _ _ hE16 harg
      rw [xtsProcess_steal_enc prim t m h1 hlt32]
      have htake_r : ((xtsBlock prim.encryptBlock t (m.take 16)).take
          (m.length - 16)).length = m.length - 16 := by
        rw [List.length_take, hcc]
        omega
      have hctn : (xtsBlock prim.encryptBlock (mulAlpha t)
          (m.drop 16 ++ (xtsBlock prim.encryptBlock t (m.take 16)).drop (m.length - 16)) ++
          (xtsBlock prim.encryptBlock t (m.take 16)).take (m.length - 16)).length =
          16 + (m.length - 16) := by
        rw [List.length_append, hC0, htake_r]
      rw [xtsProcess_steal_dec prim t _ (by omega) (by omega)]
      rw [hctn]
      have hrr : 16 + (m.length - 16) - 16 = m.length - 16 := by omega
      rw [hrr]
      rw [List.take_left' hC0, List.drop_left' hC0]
      rw [xtsBlock_rt prim hE16 hInv16 (mulAlpha t) _ harg]
      have hdl : (m.drop 16 ++ (xtsBlock prim.encryptBlock t (m.take 16)).drop
          (m.length - 16)).drop (m.length - 16) =
          (xtsBlock prim.encryptBlock t (m.take 16)).drop (m.length - 16) := by
        apply List.drop_left'
        exact hmdrop
      have htl : (m.drop 16 ++ (xtsBlock prim.encryptBlock t (m.take 16)).drop
          (m.length - 16)).take (m.length - 16) = m.drop 16 := by
        apply List.take_left'
        exact hmdrop
      rw [hdl, htl]
      rw [List.take_append_drop]
      rw [xtsBlock_rt prim hE16 hInv16 t _ htk]
      exact List.take_append_drop 16 m
    · -- at least two full blocks: peel the leading block
      have h32 : 32 ≤ m.length := by omega
      have htk : (m.take 16).length = 16 := take_length_of_le m 16 (by omega)
      have hhd : (xtsBlock prim.encryptBlock t (m.take 16)).length = 16 :=
        xtsBlock_length _ t _ hE16 htk
      have hrest : (xtsProcess prim true (mulAlpha t) (m.drop 16)).length =
          (m.drop 16).length :=
        xtsProcess_length prim true hE16 hD16 (m.drop 16).length _ _ (Nat.le_refl _)
      rw [xtsProcess_ge32 prim true t m h32]
      rw [if_pos rfl]
      have hclen : (xtsBlock prim.encryptBlock t (m.take 16) ++
          xtsProcess prim true (mulAlpha t) (m.drop 16)).length = m.length := by
        rw [List.length_append, hhd, hrest, List.length_drop]
        omega
      rw [xtsProcess_ge32 prim false t _ (by rw [hclen]; omega)]
      rw [if_neg (by simp)]
      rw [List.take_left' hhd, List.drop_left' hhd]
      rw [xtsBlock_rt prim hE16 hInv16 t _ htk]
      rw [ih (m.drop 16) (mulAlpha t)
        (by simp only [List.length_drop]; omega)
        (by simp only [List.length_drop]; omega)]
      exact List.take_append_drop 16 m

/-- C1: for every mode in {ECB, CBC, CFB, OFB, CTR, XTS} and every message
whose length is compatible with that mode (a multiple of `blockSize` for
ECB and CBC, arbitrary for CFB/OFB/CTR, at least one block for XTS),
encrypting on an engine built from a block primitive meeting the
section 4.1 contract (a length-preserving keyed permutation) with given
chain parameters, then decrypting on a fresh engine with identical
parameters, returns exactly the original message. -/
theorem C1_mode_roundtrip (prim : BlockPrimitive) (st : ChainState) (m : List Nat)
    (hbs : 0 < prim.blockSize)
    (hE : ∀ b : List Nat, b.length = prim.blockSize →
      (prim.encryptBlock b).length = prim.blockSize)
    (hD : ∀ b : List Nat, b.length = prim.blockSize →
      (prim.decryptBlock b).length = prim.blockSize)
    (hInv : ∀ b : List Nat, b.length = prim.blockSize →
      prim.decryptBlock (prim.encryptBlock b) = b)
    (hwf : chainWF prim.blockSize st)
    (hcompat : lenCompatible prim.blockSize st m.length) :
    messageCrypt prim false st (messageCrypt prim true st m) = m := by
  cases st with
  | ecb =>
    exact ecb_roundtrip prim hbs hE hInv m.length m (Nat.le_refl _) hcompat
  | cbc prev =>
    exact cbc_roundtrip prim hbs hE hInv m.length m prev (Nat.le_refl _) hwf hcompat
  | cfb prev =>
    exact cfb_roundtrip prim hbs hE m.length m prev (Nat.le_refl _) hwf
  | ofb prev =>
    exact ofb_roundtrip prim hbs hE m.length m prev (Nat.le_refl _) hwf
  | ctr n =>
    exact ctr_roundtrip prim hbs hE m.length m n (Nat.le_refl _)
  | xts t =>
    have h16 : prim.blockSize = 16 := hwf
    have hc : (16 : Nat) ≤ m.length := hcompat
    rw [h16] at hE hD hInv
    exact xts_roundtrip prim hE hD hInv m.length m t (Nat.le_refl _) hc

/-- Witness for C1: the sample reversing primitive in CBC mode on a
two-block message. -/
theorem C1_mode_roundtrip_witness :
    messageCrypt revPrim false (.cbc [5, 6])
      (messageCrypt revPrim true (.cbc [5, 6]) [1, 2, 3, 4]) = [1, 2, 3, 4] :=
  C1_mode_roundtrip revPrim (.cbc [5, 6]) [1, 2, 3, 4] (by decide)
    (fun b hb => by simp [revPrim, hb])
    (fun b hb => by simp [revPrim, hb])
    (fun b hb => by simp [revPrim])
    (by decide) (by decide)

/-- A sample primitive with 16-byte blocks for the XTS witnesses:
encryption and decryption both reverse the block. -/
def revPrim16 : BlockPrimitive := ⟨16, List.reverse, List.reverse⟩

/-- C5: for every XTS data unit of `16*k + r` bytes with `k ≥ 1` and
`0 < r < 16`, decrypting the encryption on a fresh engine with the same
parameters returns exactly the data unit, and the ciphertext has exactly
the same total byte length as the plaintext (ciphertext stealing, no
padding expansion). -/
theorem C5_xts_cts_roundtrip (prim : BlockPrimitive) (t : Nat) (m : List Nat) (k r : Nat)
    (hE16 : ∀ x : List Nat, x.length = 16 → (prim.encryptBlock x).length = 16)
    (hD16 : ∀ x : List Nat, x.length = 16 → (prim.decryptBlock x).length = 16)
    (hInv16 : ∀ x : List Nat, x.length = 16 →
      prim.decryptBlock (prim.encryptBlock x) = x)
    (hlen : m.length = 16 * k + r) (hk : 1 ≤ k) (hr1 : 0 < r) (hr2 : r < 16) :
    xtsProcess prim false t (xtsProcess prim true t m) = m ∧
      (xtsProcess prim true t m).length = m.length := by
  constructor
  · exact xts_roundtrip prim hE16 hD16 hInv16 m.length m t (Nat.le_refl _) (by omega)
  · exact xtsProcess_length prim true hE16 hD16 m.length m t (Nat.le_refl _)

/-- Witness for C5: the reversing 16-byte primitive on a 17-byte data
unit (`k = 1`, `r = 1`). -/
theorem C5_xts_cts_roundtrip_witness :
    xtsProcess revPrim16 false 3 (xtsProcess revPrim16 true 3 (List.range 17)) =
        List.range 17 ∧
      (xtsProcess revPrim16 true 3 (List.range 17)).length = (List.range 17).length :=
  C5_xts_cts_roundtrip revPrim16 3 (List.range 17) 1 1
    (fun x hx => by simp [revPrim16, hx])
    (fun x hx => by simp [revPrim16, hx])
    (fun x hx => by simp [revPrim16])
    (by simp) (by decide) (by decide) (by decide)

/-! ## Streaming output-size law (non-XTS modes) -/

/-- Indicator for the XTS chain state. -/
def isXtsB : ChainState → Bool
  | .xts _ => true
  | _ => false

theorem stepBlock_length (prim : BlockPrimitive) (ed : Bool) (st : ChainState)
    (blk : List Nat)
    (hE : ∀ b : List Nat, b.length = prim.blockSize →
      (prim.encryptBlock b).length = prim.blockSize)
    (hD : ∀ b : List Nat, b.length = prim.blockSize →
      (prim.decryptBlock b).length = prim.blockSize)
    (hwf : chainWF prim.blockSize st) (hnx : isXtsB st = false)
    (hblk : blk.length = prim.blockSize) :
    (stepBlock prim ed st blk).1.length = prim.blockSize ∧
      chainWF prim.blockSize (stepBlock prim ed st blk).2 ∧
      isXtsB (stepBlock prim ed st blk).2 = false := by
  cases st with
  | ecb =>
    cases ed <;> simp [stepBlock, chainWF, isXtsB, hE _ hblk, hD _ hblk]
  | cbc prev =>
    have hprev : prev.length = prim.blockSize := hwf
    have hx : (xorBytes blk prev).length = prim.blockSize := by
      rw [xorBytes_length, hblk, hprev, Nat.min_self]
    cases ed with
    | false =>
      refine ⟨?_, hblk, rfl⟩
      show (xorBytes (prim.decryptBlock blk) prev).length = prim.blockSize
      rw [xorBytes_length, hD _ hblk, hprev, Nat.min_self]
    | true =>
      refine ⟨?_, ?_, rfl⟩
      · show (prim.encryptBlock (xorBytes blk prev)).length = prim.blockSize
        exact hE _ hx
      · show (prim.encryptBlock (xorBytes blk prev)).length = prim.blockSize
        exact hE _ hx
  | cfb prev =>
    have hprev : prev.length = prim.blockSize := hwf
    have hk : (prim.encryptBlock prev).length = prim.blockSize := hE _ hprev
    have ho : (xorBytes blk (prim.encryptBlock prev)).length = prim.blockSize := by
      rw [xorBytes_length, hblk, hk, Nat.min_self]
    cases ed <;> simp [stepBlock, chainWF, isXtsB, ho, hblk]
  | ofb prev =>
    have hprev : prev.length = prim.blockSize := hwf
    have hk : (prim.encryptBlock prev).length = prim.blockSize := hE _ hprev
    have ho : (xorBytes blk (prim.encryptBlock prev)).length = prim.blockSize := by
      rw [xorBytes_length, hblk, hk, Nat.min_self]
    cases ed <;> simp [stepBlock, chainWF, isXtsB, ho, hk]
  | ctr n =>
    have hk : (prim.encryptBlock (natToBytesBE prim.blockSize n)).length =
        prim.blockSize := hE _ (natToBytesBE_length _ _)
    have ho : (xorBytes blk
        (prim.encryptBlock (natToBytesBE prim.blockSize n))).length =
        prim.blockSize := by
      rw [xorBytes_length, hblk, hk, Nat.min_self]
    cases ed <;> simp [stepBlock, chainWF, isXtsB, ho]
  | xts t => simp [isXtsB] at hnx

/-- The block consumer emits exactly the complete-block prefix and
retains the remainder, preserving the chain-state invariants. -/
theorem consumeBlocks_law (prim : BlockPrimitive) (ed : Bool)
    (hbs : 0 < prim.blockSize)
    (hE : ∀ b : List Nat, b.length = prim.blockSize →
      (prim.encryptBlock b).length = prim.blockSize)
    (hD : ∀ b : List Nat, b.length = prim.blockSize →
      (prim.decryptBlock b).length = prim.blockSize) :
    ∀ fuel (d : List Nat) (st : ChainState), d.length ≤ fuel →
      chainWF prim.blockSize st → isXtsB st = false →
      (consumeBlocks prim ed st d).1.length =
          d.length / prim.blockSize * prim.blockSize ∧
        (consumeBlocks prim ed st d).2.2 =
          d.drop (d.length / prim.blockSize * prim.blockSize) ∧
        chainWF prim.blockSize (consumeBlocks prim ed st d).2.1 ∧
        isXtsB (consumeBlocks prim ed st d).2.1 = false := by
  intro fuel
  induction fuel with
  | zero =>
    intro d st hm hwf hnx
    have : d = [] := List.eq_nil_of_length_eq_zero (Nat.le_zero.mp hm)
    subst this
    rw [consumeBlocks_base prim ed st [] (by simp; omega)]
    simp [hwf, hnx]
  | succ n ih =>
    intro d st hm hwf hnx
    by_cases hlen : prim.blockSize ≤ d.length
    · have htk : (d.take prim.blockSize).length = prim.blockSize :=
        take_length_of_le d prim.blockSize hlen
      obtain ⟨hol, hwf1, hnx1⟩ :=
        stepBlock_length prim ed st (d.take prim.blockSize) hE hD hwf hnx htk
      rw [consumeBlocks_step prim ed st d hbs hlen]
      obtain ⟨ihl, ihr, ihwf, ihnx⟩ := ih (d.drop prim.blockSize)
        (stepBlock prim ed st (d.take prim.blockSize)).2
        (by simp only [List.length_drop]; omega) hwf1 hnx1
      have hdiv : d.length / prim.blockSize =
          (d.length - prim.blockSize) / prim.blockSize + 1 := by
        conv_lhs =>
          rw [show d.length = (d.length - prim.blockSize) + prim.blockSize by omega]
        rw [Nat.add_div_right _ hbs]
      refine ⟨?_, ?_, ihwf, ihnx⟩
      · rw [List.length_append, hol, ihl]
        simp only [List.length_drop]
        rw [hdiv]
        ring
      · rw [ihr]
        rw [List.drop_drop]
        simp only [List.length_drop]
        have harith : (d.length - prim.blockSize) / prim.blockSize * prim.blockSize +
            prim.blockSize = d.length / prim.blockSize * prim.blockSize := by
          rw [hdiv]
          ring
        rw [← harith]
        congr 1
        omega
    · rw [consumeBlocks_base prim ed st d (by intro hcontra; exact hlen hcontra.2)]
      have hdiv0 : d.length / prim.blockSize = 0 :=
        Nat.div_eq_of_lt (Nat.lt_of_not_le hlen)
      simp [hdiv0, hwf, hnx]

/-- C8: for every mode except XTS, a call on an engine holding `carry`
buffered bytes returns exactly `((carry + len input) / blockSize) *
blockSize` output bytes; the retained carry buffer is exactly the
unconsumed tail of the buffered input (so only complete-block bytes are
fed through the primitive), its length stays strictly below `blockSize`,
and the chain-state invariant is preserved. -/
theorem C8_call_output_size (e : Engine) (ed : Bool) (data : List Nat)
    (hbs : 0 < e.prim.blockSize)
    (hE : ∀ b : List Nat, b.length = e.prim.blockSize →
      (e.prim.encryptBlock b).length = e.prim.blockSize)
    (hD : ∀ b : List Nat, b.length = e.prim.blockSize →
      (e.prim.decryptBlock b).length = e.prim.blockSize)
    (hwf : chainWF e.prim.blockSize e.chain) (hnx : isXtsB e.chain = false)
    (hcarry : e.cache.length < e.prim.blockSize) :
    (updateEngine e ed data).1.length =
        (e.cache.length + data.length) / e.prim.blockSize * e.prim.blockSize ∧
      (updateEngine e ed data).2.cache =
        (e.cache ++ data).drop
          ((e.cache.length + data.length) / e.prim.blockSize * e.prim.blockSize) ∧
      (updateEngine e ed data).2.cache.length < e.prim.blockSize ∧
      chainWF e.prim.blockSize (updateEngine e ed data).2.chain := by
  obtain ⟨hl, hr, hwf2, _⟩ := consumeBlocks_law e.prim ed hbs hE hD
    (e.cache ++ data).length (e.cache ++ data) e.chain (Nat.le_refl _) hwf hnx
  have hlen : (e.cache ++ data).length = e.cache.length + data.length :=
    List.length_append _ _
  refine ⟨?_, ?_, ?_, ?_⟩
  · show (consumeBlocks e.prim ed e.chain (e.cache ++ data)).1.length = _
    rw [hl, hlen]
  · show (consumeBlocks e.prim ed e.chain (e.cache ++ data)).2.2 = _
    rw [hr, hlen]
  · show (consumeBlocks e.prim ed e.chain (e.cache ++ data)).2.2.length < _
    rw [hr]
    simp only [List.length_drop, hlen]
    rw [Nat.mul_comm ((e.cache.length + data.length) / e.prim.blockSize) e.prim.blockSize]
    have hdm := Nat.div_add_mod (e.cache.length + data.length) e.prim.blockSize
    have hmlt := Nat.mod_lt (e.cache.length + data.length) hbs
    omega
  · exact hwf2

/-- Witness for C8: the sample reversing primitive in OFB mode, 3 bytes
carried, 5 new bytes: exactly `((3 + 5) / 2) * 2 = 8` bytes emitted.
(The sample block size is 2, so a 1-byte carry remains.) -/
theorem C8_call_output_size_witness :
    (updateEngine ⟨revPrim, .ofb [7, 9], [3]⟩ true [10, 11, 12, 13, 14]).1.length =
        (([3] : List Nat).length + ([10, 11, 12, 13, 14] : List Nat).length) /
          revPrim.blockSize * revPrim.blockSize ∧
      (updateEngine ⟨revPrim, .ofb [7, 9], [3]⟩ true [10, 11, 12, 13, 14]).2.cache =
        (([3] : List Nat) ++ [10, 11, 12, 13, 14]).drop
          ((([3] : List Nat).length + ([10, 11, 12, 13, 14] : List Nat).length) /
            revPrim.blockSize * revPrim.blockSize) ∧
      (updateEngine ⟨revPrim, .ofb [7, 9], [3]⟩ true
          [10, 11, 12, 13, 14]).2.cache.length < revPrim.blockSize ∧
      chainWF revPrim.blockSize
        (updateEngine ⟨revPrim, .ofb [7, 9], [3]⟩ true [10, 11, 12, 13, 14]).2.chain :=
  C8_call_output_size ⟨revPrim, .ofb [7, 9], [3]⟩ true [10, 11, 12, 13, 14]
    (by decide)
    (fun b hb => by simp [revPrim] at hb ⊢; omega)
    (fun b hb => by simp [revPrim] at hb ⊢; omega)
    (by decide) (by decide) (by decide)

/-! ## The AES block primitive

`rijndael.py` is not part of the provided source tree; the wrapper
`python_AES.py` consumes it only as `rijndael(key, 16)` with
`encrypt`/`decrypt` on 16-byte blocks. The definitions below are the
standard AES cipher of FIPS 197, which the spec's NIST SP 800-38A test
vectors pin down.
-/

/-- Multiplication by x in GF(2^8) modulo the Rijndael polynomial. -/
def xtime (a : Nat) : Nat :=
  if a &&& 0x80 = 0 then (a <<< 1) &&& 0xFF else ((a <<< 1) ^^^ 0x1B) &&& 0xFF

def gmulAux : Nat → Nat → Nat → Nat → Nat
  | 0, _, _, acc => acc
  | n + 1, a, b, acc =>
      gmulAux n (xtime a) (b >>> 1) (if b &&& 1 = 1 then acc ^^^ a else acc)

/-- Multiplication in GF(2^8). -/
def gmul (a b : Nat) : Nat := gmulAux 8 a b 0

/-- Inverse in GF(2^8) as x^254 (0 maps to 0), by a squaring chain. -/
def ginv (a : Nat) : Nat :=
  let s1 := gmul a a
  let s2 := gmul s1 s1
  let s3 := gmul s2 s2
  let s4 := gmul s3 s3
  let s5 := gmul s4 s4
  let s6 := gmul s5 s5
  let s7 := gmul s6 s6
  gmul s1 (gmul s2 (gmul s3 (gmul s4 (gmul s5 (gmul s6 s7)))))

/-- Left rotation of an 8-bit value. -/
def rotl8 (b n : Nat) : Nat := ((b <<< n) ||| (b >>> (8 - n))) &&& 0xFF

/-- The AES S-box: multiplicative inverse followed by the affine map. -/
def sbox (b : Nat) : Nat :=
  let i := ginv (b &&& 0xFF)
  i ^^^ rotl8 i 1 ^^^ rotl8 i 2 ^^^ rotl8 i 3 ^^^ rotl8 i 4 ^^^ 0x63

def subWord (w : List Nat) : List Nat := w.map sbox

def rotWord (w : List Nat) : List Nat := w.drop 1 ++ w.take 1

/-- AES round constants (first byte of the Rcon word). -/
def rcon : Nat → Nat
  | 1 => 0x01
  | 2 => 0x02
  | 3 => 0x04
  | 4 => 0x08
  | 5 => 0x10
  | 6 => 0x20
  | 7 => 0x40
  | 8 => 0x80
  | 9 => 0x1B
  | 10 => 0x36
  | _ => 0

/-- The 44 words of the AES-128 key schedule. -/
def keyWords (key : List Nat) : List (List Nat) :=
  (List.range 40).foldl
    (fun ws j =>
      let i := j + 4
      let w :=
        if i % 4 = 0 then
          xorBytes (ws.getD j [])
            (xorBytes (subWord (rotWord (ws.getD (j + 3) []))) [rcon (i / 4), 0, 0, 0])
        else xorBytes (ws.getD j []) (ws.getD (j + 3) [])
      ws ++ [w])
    ((List.range 4).map (fun i => (key.drop (4 * i)).take 4))

/-- Round key `r` (16 bytes) of the AES-128 key schedule. -/
def roundKey (key : List Nat) (r : Nat) : List Nat :=
  (((keyWords key).drop (4 * r)).take 4).flatten

def subBytes (s : List Nat) : List Nat := s.map sbox

/-- ShiftRows on the column-major byte order of FIPS 197:
output byte `r + 4c` is input byte `r + 4((c + r) mod 4)`. -/
def shiftRows (s : List Nat) : List Nat :=
  (List.range 16).map (fun i => s.getD ((i % 4) + 4 * (((i / 4) + (i % 4)) % 4)) 0)

def mixColumn (c : List Nat) : List Nat :=
  match c with
  | [a0, a1, a2, a3] =>
      [gmul 2 a0 ^^^ gmul 3 a1 ^^^ a2 ^^^ a3,
       a0 ^^^ gmul 2 a1 ^^^ gmul 3 a2 ^^^ a3,
       a0 ^^^ a1 ^^^ gmul 2 a2 ^^^ gmul 3 a3,
       gmul 3 a0 ^^^ a1 ^^^ a2 ^^^ gmul 2 a3]
  | c => c

def mixColumns (s : List Nat) : List Nat :=
  ((List.range 4).map (fun c => mixColumn ((s.drop (4 * c)).take 4))).flatten

/-- AES-128 block encryption (FIPS 197). -/
def aesEncryptBlock (key : List Nat) (blk : List Nat) : List Nat :=
  let s0 := xorBytes blk (roundKey key 0)
  let s9 := (List.range 9).foldl
    (fun s r => xorBytes (mixColumns (shiftRows (subBytes s))) (roundKey key (r + 1))) s0
  xorBytes (shiftRows (subBytes s9)) (roundKey key 10)

/-- Inverse of the S-box affine map. -/
def invAffine (s : Nat) : Nat := rotl8 s 1 ^^^ rotl8 s 3 ^^^ rotl8 s 6 ^^^ 0x05

/-- The inverse AES S-box. -/
def invSbox (b : Nat) : Nat := ginv (invAffine (b &&& 0xFF))

def invSubBytes (s : List Nat) : List Nat := s.map invSbox

/-- Inverse ShiftRows: output byte `r + 4c` is input byte
`r + 4((c - r) mod 4)`. -/
def invShiftRows (s : List Nat) : List Nat :=
  (List.range 16).map (fun i => s.getD ((i % 4) + 4 * (((i / 4) + 4 - (i % 4)) % 4)) 0)

def invMixColumn (c : List Nat) : List Nat :=
  match c with
  | [a0, a1, a2, a3] =>
      [gmul 14 a0 ^^^ gmul 11 a1 ^^^ gmul 13 a2 ^^^ gmul 9 a3,
       gmul 9 a0 ^^^ gmul 14 a1 ^^^ gmul 11 a2 ^^^ gmul 13 a3,
       gmul 13 a0 ^^^ gmul 9 a1 ^^^ gmul 14 a2 ^^^ gmul 11 a3,
       gmul 11 a0 ^^^ gmul 13 a1 ^^^ gmul 9 a2 ^^^ gmul 14 a3]
  | c => c

def invMixColumns (s : List Nat) : List Nat :=
  ((List.range 4).map (fun c => invMixColumn ((s.drop (4 * c)).take 4))).flatten

/-- AES-128 block decryption (FIPS 197, straightforward inverse order). -/
def aesDecryptBlock (key : List Nat) (blk : List Nat) : List Nat :=
  let s0 := xorBytes blk (roundKey key 10)
  let s9 := (List.range 9).foldl
    (fun s r => invMixColumns (xorBytes (invSubBytes (invShiftRows s)) (roundKey key (9 - r))))
    s0
  xorBytes (invSubBytes (invShiftRows s9)) (roundKey key 0)

/-- Modelled from the spec: the keyed AES block primitive handle produced
by `rijndael(key, 16)` (spec section 4.1 contract). -/
def aesPrimitive (key : List Nat) : BlockPrimitive :=
  ⟨16, aesEncryptBlock key, aesDecryptBlock key⟩

/-! ## The DES block primitive

`pyDes.py` is likewise not part of the provided source tree; the wrapper
`python_DES.py` consumes it as `pyDes.des(key)` with 8-byte blocks. The
definitions below are the standard DES cipher (FIPS 46-3), which the
spec's NESSIE test vector pins down.
-/

/-- A byte string to its big-endian bit string. -/
def bytesToBits (bs : List Nat) : List Nat :=
  bs.flatMap (fun b => (List.range 8).map (fun i => (b >>> (7 - i)) &&& 1))

/-- A bit string back to bytes (length a multiple of 8). -/
def bitsToBytes (bits : List Nat) : List Nat :=
  (List.range (bits.length / 8)).map (fun i =>
    ((bits.drop (8 * i)).take 8).foldl (fun acc b => acc * 2 + b) 0)

/-- Apply a 1-based DES permutation table to a bit string. -/
def permuteBits (table : List Nat) (bits : List Nat) : List Nat :=
  table.map (fun i => bits.getD (i - 1) 0)

/-- Left rotation of a bit string. -/
def rotlBits (l : List Nat) (n : Nat) : List Nat := l.drop n ++ l.take n

def desIP : List Nat :=
  [58, 50, 42, 34, 26, 18, 10, 2, 60, 52, 44, 36, 28, 20, 12, 4,
   62, 54, 46, 38, 30, 22, 14, 6, 64, 56, 48, 40, 32, 24, 16, 8,
   57, 49, 41, 33, 25, 17, 9, 1, 59, 51, 43, 35, 27, 19, 11, 3,
   61, 53, 45, 37, 29, 21, 13, 5, 63, 55, 47, 39, 31, 23, 15, 7]

def desFP : List Nat :=
  [40, 8, 48, 16, 56, 24, 64, 32, 39, 7, 47, 15, 55, 23, 63, 31,
   38, 6, 46, 14, 54, 22, 62, 30, 37, 5, 45, 13, 53, 21, 61, 29,
   36, 4, 44, 12, 52, 20, 60, 28, 35, 3, 43, 11, 51, 19, 59, 27,
   34, 2, 42, 10, 50, 18, 58, 26, 33, 1, 41, 9, 49, 17, 57, 25]

def desE : List Nat :=
  [32, 1, 2, 3, 4, 5, 4, 5, 6, 7, 8, 9, 8, 9, 10, 11, 12, 13,
   12, 13, 14, 15, 16, 17, 16, 17, 18, 19, 20, 21, 20, 21, 22, 23, 24, 25,
   24, 25, 26, 27, 28, 29, 28, 29, 30, 31, 32, 1]

def desP : List Nat :=
  [16, 7, 20, 21, 29, 12, 28, 17, 1, 15, 23, 26, 5, 18, 31, 10,
   2, 8, 24, 14, 32, 27, 3, 9, 19, 13, 30, 6, 22, 11, 4, 25]

def desPC1 : List Nat :=
  [57, 49, 41, 33, 25, 17, 9, 1, 58, 50, 42, 34, 26, 18,
   10, 2, 59, 51, 43, 35, 27, 19, 11, 3, 60, 52, 44, 36,
   63, 55, 47, 39, 31, 23, 15, 7, 62, 54, 46, 38, 30, 22,
   14, 6, 61, 53, 45, 37, 29, 21, 13, 5, 28, 20, 12, 4]

def desPC2 : List Nat :=
  [14, 17, 11, 24, 1, 5, 3, 28, 15, 6, 21, 10,
   23, 19, 12, 4, 26, 8, 16, 7, 27, 20, 13, 2,
   41, 52, 31, 37, 47, 55, 30, 40, 51, 45, 33, 48,
   44, 49, 39, 56, 34, 53, 46, 42, 50, 36, 29, 32]

def desShifts : List Nat := [1, 1, 2, 2, 2, 2, 2, 2, 1, 2, 2, 2, 2, 2, 2, 1]

def desSboxes : List (List Nat) :=
  [[14, 4, 13, 1, 2, 15, 11, 8, 3, 10, 6, 12, 5, 9, 0, 7,
    0, 15, 7, 4, 14, 2, 13, 1, 10, 6, 12, 11, 9, 5, 3, 8,
    4, 1, 14, 8, 13, 6, 2, 11, 15, 12, 9, 7, 3, 10, 5, 0,
    15, 12, 8, 2, 4, 9, 1, 7, 5, 11, 3, 14, 10, 0, 6, 13],
   [15, 1, 8, 14, 6, 11, 3, 4, 9, 7, 2, 13, 12, 0, 5, 10,
    3, 13, 4, 7, 15, 2, 8, 14, 12, 0, 1, 10, 6, 9, 11, 5,
    0, 14, 7, 11, 10, 4, 13, 1, 5, 8, 12, 6, 9, 3, 2, 15,
    13, 8, 10, 1, 3, 15, 4, 2, 11, 6, 7, 12, 0, 5, 14, 9],
   [10, 0, 9, 14, 6, 3, 15, 5, 1, 13, 12, 7, 11, 4, 2, 8,
    13, 7, 0, 9, 3, 4, 6, 10, 2, 8, 5, 14, 12, 11, 15, 1,
    13, 6, 4, 9, 8, 15, 3, 0, 11, 1, 2, 12, 5, 10, 14, 7,
    1, 10, 13, 0, 6, 9, 8, 7, 4, 15, 14, 3, 11, 5, 2, 12],
   [7, 13, 14, 3, 0, 6, 9, 10, 1, 2, 8, 5, 11, 12, 4, 15,
    13, 8, 11, 5, 6, 15, 0, 3, 4, 7, 2, 12, 1, 10, 14, 9,
    10, 6, 9, 0, 12, 11, 7, 13, 15, 1, 3, 14, 5, 2, 8, 4,
    3, 15, 0, 6, 10, 1, 13, 8, 9, 4, 5, 11, 12, 7, 2, 14],
   [2, 12, 4, 1, 7, 10, 11, 6, 8, 5, 3, 15, 13, 0, 14, 9,
    14, 11, 2, 12, 4, 7, 13, 1, 5, 0, 15, 10, 3, 9, 8, 6,
    4, 2, 1, 11, 10, 13, 7, 8, 15, 9, 12, 5, 6, 3, 0, 14,
    11, 8, 12, 7, 1, 14, 2, 13, 6, 15, 0, 9, 10, 4, 5, 3],
   [12, 1, 10, 15, 9, 2, 6, 8, 0, 13, 3, 4, 14, 7, 5, 11,
    10, 15, 4, 2, 7, 12, 9, 5, 6, 1, 13, 14, 0, 11, 3, 8,
    9, 14, 15, 5, 2, 8, 12, 3, 7, 0, 4, 10, 1, 13, 11, 6,
    4, 3, 2, 12, 9, 5, 15, 10, 11, 14, 1, 7, 6, 0, 8, 13],
   [4, 11, 2, 14, 15, 0, 8, 13, 3, 12, 9, 7, 5, 10, 6, 1,
    13, 0, 11, 7, 4, 9, 1, 10, 14, 3, 5, 12, 2, 15, 8, 6,
    1, 4, 11, 13, 12, 3, 7, 14, 10, 15, 6, 8, 0, 5, 9, 2,
    6, 11, 13, 8, 1, 4, 10, 7, 9, 5, 0, 15, 14, 2, 3, 12],
   [13, 2, 8, 4, 6, 15, 11, 1, 10, 9, 3, 14, 5, 0, 12, 7,
    1, 15, 13, 8, 10, 3, 7, 4, 12, 5, 6, 11, 0, 14, 9, 2,
    7, 11, 4, 1, 9, 12, 14, 2, 0, 6, 10, 13, 15, 3, 5, 8,
    2, 1, 14, 7, 4, 10, 8, 13, 15, 12, 9, 0, 3, 5, 6, 11]]

/-- The 16 DES round subkeys (48 bits each) of an 8-byte key. -/
def desSubkeys (key : List Nat) : List (List Nat) :=
  let b := permuteBits desPC1 (bytesToBits key)
  ((desShifts.foldl
    (fun (acc : List (List Nat) × List Nat × List Nat) s =>
      let c := rotlBits acc.2.1 s
      let d := rotlBits acc.2.2 s
      (acc.1 ++ [permuteBits desPC2 (c ++ d)], c, d))
    ([], b.take 28, b.drop 28))).1

/-- The DES round function: expansion, key mix, S-boxes, permutation. -/
def desF (r k : List Nat) : List Nat :=
  let x := xorBytes (permuteBits desE r) k
  let s := ((List.range 8).map (fun i =>
    let g := (x.drop (6 * i)).take 6
    let row := 2 * g.getD 0 0 + g.getD 5 0
    let col := 8 * g.getD 1 0 + 4 * g.getD 2 0 + 2 * g.getD 3 0 + g.getD 4 0
    let v := (desSboxes.getD i []).getD (16 * row + col) 0
    (List.range 4).map (fun j => (v >>> (3 - j)) &&& 1))).flatten
  permuteBits desP s

/-- The DES Feistel network under a given subkey sequence. -/
def desProcess (keys : List (List Nat)) (blk : List Nat) : List Nat :=
  let bits := permuteBits desIP (bytesToBits blk)
  let lr := keys.foldl
    (fun (lr : List Nat × List Nat) k => (lr.2, xorBytes lr.1 (desF lr.2 k)))
    (bits.take 32, bits.drop 32)
  bitsToBytes (permuteBits desFP (lr.2 ++ lr.1))

def desEncryptBlock (key blk : List Nat) : List Nat := desProcess (desSubkeys key) blk

def desDecryptBlock (key blk : List Nat) : List Nat :=
  desProcess (desSubkeys key).reverse blk

/-- Modelled from the spec: the keyed DES block primitive handle produced
by `pyDes.des(key)` (spec section 4.1 contract; `block_size` is 8). -/
def desPrimitive (key : List Nat) : BlockPrimitive :=
  ⟨8, desEncryptBlock key, desDecryptBlock key⟩

/-! ## The wrapper modules `python_AES.py` and `python_DES.py` -/

/-- Big-endian byte string to natural number (the value of a CTR
counter block). -/
def bytesToNatBE (bs : List Nat) : Nat := bs.foldl (fun acc b => acc * 256 + b) 0

/-- From the source (`python_AES.py` lines 10-15): the module-level mode
constants, as (name, value) pairs. -/
def python_AES_modeConstants : List (String × Nat) :=
  [("MODE_ECB", 1), ("MODE_CBC", 2), ("MODE_CFB", 3), ("MODE_OFB", 5),
   ("MODE_CTR", 6), ("MODE_XTS", 7)]

/-- From the source (`python_DES.py` lines 4-8): the module-level mode
constants, as (name, value) pairs; there is no `MODE_XTS`. -/
def python_DES_modeConstants : List (String × Nat) :=
  [("MODE_ECB", 1), ("MODE_CBC", 2), ("MODE_CFB", 3), ("MODE_OFB", 5),
   ("MODE_CTR", 6)]

def python_AES_MODE_ECB : Nat := 1
def python_AES_MODE_CBC : Nat := 2
def python_AES_MODE_CFB : Nat := 3
def python_AES_MODE_OFB : Nat := 5
def python_AES_MODE_CTR : Nat := 6
def python_AES_MODE_XTS : Nat := 7

def python_DES_MODE_ECB : Nat := 1

/-- Modelled from the spec: `blockcipher.MODE_ECB`, the default `mode`
argument of both wrappers' `new` (`blockcipher.py` is not in the
provided source tree; both wrappers bind `MODE_ECB = 1`). -/
def blockcipher_MODE_ECB : Nat := 1

/-- Modelled from the spec: chain-state construction from the mode number
and the mode-specific parameters (sections 3, 6, 7): CBC/CFB/OFB require
a `blockSize`-byte IV, CTR a counter, XTS a tweak seed produced by the
second primitive; construction fails (`none`) on missing or ill-sized
parameters or an unknown mode number. -/
def mkChain (bs : Nat) (mode : Nat) (iv : Option (List Nat)) (cnt : Option Nat)
    (tweak : Option Nat) : Option ChainState :=
  if mode = 1 then some .ecb
  else if mode = 2 then
    match iv with
    | some v => if v.length = bs then some (.cbc v) else none
    | none => none
  else if mode = 3 then
    match iv with
    | some v => if v.length = bs then some (.cfb v) else none
    | none => none
  else if mode = 5 then
    match iv with
    | some v => if v.length = bs then some (.ofb v) else none
    | none => none
  else if mode = 6 then
    match cnt with
    | some n => some (.ctr n)
    | none => none
  else if mode = 7 then
    match tweak with
    | some t => some (.xts t)
    | none => none
  else none

/-- From the source (`python_AES.py`, `new` / `python_AES.__init__`,
lines 17-18 and 100-108): XTS asserts the combined key is exactly 32
bytes and keys `cipher` with the first half, `cipher2` with the second
half; any other mode passes the whole key to `rijndael(key, 16)`, whose
accepted key sizes (16, 24 or 32 bytes) and the engine's IV/counter
checks are modelled from the spec. Returns `none` when construction
raises. -/
def python_AES_new (key : List Nat) (mode : Nat) (iv : Option (List Nat))
    (cnt : Option Nat) : Option Engine :=
  if mode = python_AES_MODE_XTS then
    if key.length = 32 then
      let c2 := aesPrimitive (key.drop 16)
      match mkChain 16 mode iv cnt
          (some (bytesToNatLE (c2.encryptBlock (List.replicate 16 0)))) with
      | some st => some ⟨aesPrimitive (key.take 16), st, []⟩
      | none => none
    else none
  else
    if key.length = 16 ∨ key.length = 24 ∨ key.length = 32 then
      match mkChain 16 mode iv cnt none with
      | some st => some ⟨aesPrimitive key, st, []⟩
      | none => none
    else none

/-- From the source (`python_DES.py`, `new` / `python_DES.__init__`,
lines 10-11 and 27-30): the whole key goes to `pyDes.des(key)` (8-byte
keys, 8-byte blocks); the DES wrapper never constructs a second
primitive, so no XTS tweak seed exists. Parameter checks are modelled
from the spec. Returns `none` when construction raises. -/
def python_DES_new (key : List Nat) (mode : Nat) (iv : Option (List Nat))
    (cnt : Option Nat) : Option Engine :=
  if key.length = 8 then
    match mkChain 8 mode iv cnt none with
    | some st => some ⟨desPrimitive key, st, []⟩
    | none => none
  else none

/-- From the source: `new(key)` with the mode argument omitted, for both
wrappers (`mode` defaults to `blockcipher.MODE_ECB`). -/
def python_AES_new_default (key : List Nat) : Option Engine :=
  python_AES_new key blockcipher_MODE_ECB none none

def python_DES_new_default (key : List Nat) : Option Engine :=
  python_DES_new key blockcipher_MODE_ECB none none

/-! ## Concrete test vectors (NIST SP 800-38A, NESSIE) -/

def aesKeyVec : List Nat :=
  [0x2b, 0x7e, 0x15, 0x16, 0x28, 0xae, 0xd2, 0xa6,
   0xab, 0xf7, 0x15, 0x88, 0x09, 0xcf, 0x4f, 0x3c]

def aesIvVec : List Nat :=
  [0x00, 0x01, 0x02, 0x03, 0x04, 0x05, 0x06, 0x07,
   0x08, 0x09, 0x0a, 0x0b, 0x0c, 0x0d, 0x0e, 0x0f]

def nistPt : List Nat :=
  [0x6b, 0xc1, 0xbe, 0xe2, 0x2e, 0x40, 0x9f, 0x96,
   0xe9, 0x3d, 0x7e, 0x11, 0x73, 0x93, 0x17, 0x2a,
   0xae, 0x2d, 0x8a, 0x57, 0x1e, 0x03, 0xac, 0x9c,
   0x9e, 0xb7, 0x6f, 0xac, 0x45, 0xaf, 0x8e, 0x51,
   0x30, 0xc8, 0x1c, 0x46, 0xa3, 0x5c, 0xe4, 0x11,
   0xe5, 0xfb, 0xc1, 0x19, 0x1a, 0x0a, 0x52, 0xef]

def cbcCt : List Nat :=
  [0x76, 0x49, 0xab, 0xac, 0x81, 0x19, 0xb2, 0x46,
   0xce, 0xe9, 0x8e, 0x9b, 0x12, 0xe9, 0x19, 0x7d,
   0x50, 0x86, 0xcb, 0x9b, 0x50, 0x72, 0x19, 0xee,
   0x95, 0xdb, 0x11, 0x3a, 0x91, 0x76, 0x78, 0xb2,
   0x73, 0xbe, 0xd6, 0xb8, 0xe3, 0xc1, 0x74, 0x3b,
   0x71, 0x16, 0xe6, 0x9e, 0x22, 0x22, 0x95, 0x16]

def ctrInitVec : List Nat :=
  [0xf0, 0xf1, 0xf2, 0xf3, 0xf4, 0xf5, 0xf6, 0xf7,
   0xf8, 0xf9, 0xfa, 0xfb, 0xfc, 0xfd, 0xfe, 0xff]

def ctrCt : List Nat :=
  [0x87, 0x4d, 0x61, 0x91, 0xb6, 0x20, 0xe3, 0x26,
   0x1b, 0xef, 0x68, 0x64, 0x99, 0x0d, 0xb6, 0xce,
   0x98, 0x06, 0xf6, 0x6b, 0x79, 0x70, 0xfd, 0xff,
   0x86, 0x17, 0x18, 0x7b, 0xb9, 0xff, 0xfd, 0xff,
   0x5a, 0xe4, 0xdf, 0x3e, 0xdb, 0xd5, 0xd3, 0x5e,
   0x5b, 0x4f, 0x09, 0x02, 0x0d, 0xb0, 0x3e, 0xab]

def desKeyVec : List Nat := [0x7c, 0xa1, 0x10, 0x45, 0x4a, 0x1a, 0x6e, 0x57]

def desPtVec : List Nat := [0x01, 0xa1, 0xd6, 0xd0, 0x39, 0x77, 0x67, 0x42]

def desCtVec : List Nat := [0x69, 0x0f, 0x5b, 0x0d, 0x9a, 0x26, 0x93, 0x9b]

/-- C3: an engine constructed as AES-128 CBC with the NIST key and IV,
applied by one `encrypt` call to the 48-byte NIST plaintext, returns
exactly the NIST ciphertext. -/
theorem C3_cbc_vector :
    (python_AES_new aesKeyVec python_AES_MODE_CBC (some aesIvVec) none).map
      (fun e => (updateEngine e true nistPt).1) = some cbcCt := by
  decide

/-- C6: a DES engine in ECB mode with key `7ca110454a1a6e57` maps the
block `01a1d6d039776742` to exactly `690f5b0d9a26939b`, and decrypting
that ciphertext on the same engine returns the plaintext block. -/
theorem C6_des_ecb_vector :
    (python_DES_new desKeyVec python_DES_MODE_ECB none none).map
      (fun e =>
        ((updateEngine e true desPtVec).1,
          (updateEngine (updateEngine e true desPtVec).2 false
            (updateEngine e true desPtVec).1).1)) =
      some (desCtVec, desPtVec) := by
  decide

theorem shiftRows_length (s : List Nat) : (shiftRows s).length = 16 := by
  simp [shiftRows]

/-- The AES block transform always emits 16 bytes once the last round
key has 16 bytes (it does for every properly sized key). -/
theorem aesEncryptBlock_length (key blk : List Nat)
    (hk : (roundKey key 10).length = 16) : (aesEncryptBlock key blk).length = 16 := by
  simp only [aesEncryptBlock]
  rw [xorBytes_length, shiftRows_length, hk, Nat.min_self]

/-- C4: an AES-128 CTR engine with the NIST key and initial counter
`f0f1f2f3f4f5f6f7f8f9fafbfcfdfeff`, applied to the 48-byte NIST
plaintext, returns exactly the NIST ciphertext; and for every plaintext
and every initial counter value, a freshly seeded engine with the same
counter value decrypts the ciphertext back to the plaintext. -/
theorem C4_ctr_vector_roundtrip :
    ((python_AES_new aesKeyVec python_AES_MODE_CTR none
        (some (bytesToNatBE ctrInitVec))).map
      (fun e => (updateEngine e true nistPt).1) = some ctrCt) ∧
    ∀ (p : List Nat) (v : Nat),
      messageCrypt (aesPrimitive aesKeyVec) false (.ctr v)
        (messageCrypt (aesPrimitive aesKeyVec) true (.ctr v) p) = p := by
  constructor
  · decide
  · intro p v
    have hE : ∀ b : List Nat, b.length = (aesPrimitive aesKeyVec).blockSize →
        ((aesPrimitive aesKeyVec).encryptBlock b).length =
          (aesPrimitive aesKeyVec).blockSize :=
      fun b _ => aesEncryptBlock_length aesKeyVec b (by decide)
    exact ctr_roundtrip (aesPrimitive aesKeyVec) (by decide) hE p.length p v (Nat.le_refl _)

/-- C7 counterexample: a 48-byte combined key — exactly twice the valid
24-byte AES key size, so the claim says construction must succeed — is
rejected by the XTS construction (`python_AES.__init__` asserts
`len(key) == 32`). -/
theorem C7_counterexample_48byte_key :
    python_AES_new (List.replicate 48 0x2b) python_AES_MODE_XTS none none = none ∧
      48 = 2 * 24 :=
  ⟨rfl, rfl⟩

/-- C7 (amended): constructing an XTS-mode AES engine succeeds if and
only if the combined key is exactly 32 bytes (`assert len(key) == 32` —
48- and 64-byte double keys are rejected, unlike the claim's "twice any
valid single-key length"); on success the first half of the key keys
the data primitive (`cipher`) and the second half keys the tweak
primitive (`cipher2`), which seeds the tweak. -/
theorem C7_xts_key_split (key : List Nat) (iv : Option (List Nat)) (cnt : Option Nat) :
    ((python_AES_new key python_AES_MODE_XTS iv cnt).isSome ↔ key.length = 32) ∧
    (∀ e : Engine, python_AES_new key python_AES_MODE_XTS iv cnt = some e →
      e.prim = aesPrimitive (key.take 16) ∧
      e.chain = .xts (bytesToNatLE
        ((aesPrimitive (key.drop 16)).encryptBlock (List.replicate 16 0)))) := by
  have hmk : ∀ t : Nat, mkChain 16 python_AES_MODE_XTS iv cnt (some t) =
      some (.xts t) := fun t => rfl
  simp only [python_AES_new, if_pos rfl]
  by_cases hk : key.length = 32
  · rw [if_pos hk, hmk]
    constructor
    · simp [hk]
    · intro e he
      have he2 := (Option.some.injEq _ _).mp he
      subst he2
      exact ⟨rfl, rfl⟩
  · rw [if_neg hk]
    constructor
    · simp [hk]
    · intro e he
      exact absurd he (by simp)

/-- Witness for C7: the 32-byte key made of two NIST halves is accepted,
and the constructed engine splits it as stated. -/
theorem C7_xts_key_split_witness :
    ((python_AES_new (aesKeyVec ++ aesKeyVec) python_AES_MODE_XTS none none).isSome ↔
      (aesKeyVec ++ aesKeyVec).length = 32) ∧
    ((⟨aesPrimitive ((aesKeyVec ++ aesKeyVec).take 16),
        ChainState.xts (bytesToNatLE
          ((aesPrimitive ((aesKeyVec ++ aesKeyVec).drop 16)).encryptBlock
            (List.replicate 16 0))), []⟩ : Engine).prim =
        aesPrimitive ((aesKeyVec ++ aesKeyVec).take 16) ∧
      (⟨aesPrimitive ((aesKeyVec ++ aesKeyVec).take 16),
        ChainState.xts (bytesToNatLE
          ((aesPrimitive ((aesKeyVec ++ aesKeyVec).drop 16)).encryptBlock
            (List.replicate 16 0))), []⟩ : Engine).chain =
        .xts (bytesToNatLE
          ((aesPrimitive ((aesKeyVec ++ aesKeyVec).drop 16)).encryptBlock
            (List.replicate 16 0)))) :=
  ⟨(C7_xts_key_split (aesKeyVec ++ aesKeyVec) none none).1,
   (C7_xts_key_split (aesKeyVec ++ aesKeyVec) none none).2 _ rfl⟩

/-- C9: the DES wrapper module defines exactly the constants
`MODE_ECB = 1`, `MODE_CBC = 2`, `MODE_CFB = 3`, `MODE_OFB = 5`,
`MODE_CTR = 6` and no `MODE_XTS` — and requesting mode 7 (XTS) through
the 8-byte-block DES wrapper fails at construction — while the AES
wrapper additionally defines `MODE_XTS = 7`. -/
theorem C9_mode_constants :
    python_DES_modeConstants =
      [("MODE_ECB", 1), ("MODE_CBC", 2), ("MODE_CFB", 3), ("MODE_OFB", 5),
       ("MODE_CTR", 6)] ∧
    (∀ p ∈ python_DES_modeConstants, p.1 ≠ "MODE_XTS") ∧
    python_AES_modeConstants = python_DES_modeConstants ++ [("MODE_XTS", 7)] ∧
    (∀ (key : List Nat) (iv : Option (List Nat)) (cnt : Option Nat),
      python_DES_new key 7 iv cnt = none) := by
  refine ⟨rfl, by decide, rfl, ?_⟩
  intro key iv cnt
  unfold python_DES_new
  by_cases hk : key.length = 8
  · rw [if_pos hk]
    have hmk : mkChain 8 7 iv cnt none = none := rfl
    rw [hmk]
  · rw [if_neg hk]

/-- C10: for both wrappers, `new(key)` with the mode argument omitted
constructs the engine in ECB mode: the default construction is equal to
the explicit `MODE_ECB` construction (hence `encrypt`/`decrypt` behave
identically), and the engine it yields carries the ECB chain state, an
empty carry buffer, no IV and no counter. -/
theorem C10_default_mode :
    (∀ key : List Nat, python_AES_new_default key =
        python_AES_new key python_AES_MODE_ECB none none) ∧
    (∀ key : List Nat, python_DES_new_default key =
        python_DES_new key python_DES_MODE_ECB none none) ∧
    (∀ (key : List Nat) (e : Engine), python_AES_new_default key = some e →
      e.chain = .ecb ∧ e.cache = []) ∧
    (∀ (key : List Nat) (e : Engine), python_DES_new_default key = some e →
      e.chain = .ecb ∧ e.cache = []) := by
  refine ⟨fun key => rfl, fun key => rfl, ?_, ?_⟩
  · intro key e he
    unfold python_AES_new_default python_AES_new at he
    by_cases hk : key.length = 16 ∨ key.length = 24 ∨ key.length = 32
    · rw [if_neg (by simp [blockcipher_MODE_ECB, python_AES_MODE_XTS]), if_pos hk] at he
      have hmk : mkChain 16 blockcipher_MODE_ECB none none none = some .ecb := rfl
      rw [hmk] at he
      have he2 := (Option.some.injEq _ _).mp he
      subst he2
      exact ⟨rfl, rfl⟩
    · rw [if_neg (by simp [blockcipher_MODE_ECB, python_AES_MODE_XTS]), if_neg hk] at he
      exact absurd he (by simp)
  · intro key e he
    unfold python_DES_new_default python_DES_new at he
    by_cases hk : key.length = 8
    · rw [if_pos hk] at he
      have hmk : mkChain 8 blockcipher_MODE_ECB none none none = some .ecb := rfl
      rw [hmk] at he
      have he2 := (Option.some.injEq _ _).mp he
      subst he2
      exact ⟨rfl, rfl⟩
    · rw [if_neg hk] at he
      exact absurd he (by simp)

/-- Witness for C10: the default-constructed AES engine for the NIST key
has the ECB chain state and an empty carry buffer. -/
theorem C10_default_mode_witness :
    (⟨aesPrimitive aesKeyVec, ChainState.ecb, []⟩ : Engine).chain = ChainState.ecb ∧
      (⟨aesPrimitive aesKeyVec, ChainState.ecb, []⟩ : Engine).cache = [] :=
  C10_default_mode.2.2.1 aesKeyVec ⟨aesPrimitive aesKeyVec, ChainState.ecb, []⟩ rfl

/-- Witness for C9: the first DES mode constant is not `MODE_XTS`, and a
concrete XTS request through the DES wrapper fails. -/
theorem C9_mode_constants_witness :
    (("MODE_ECB", 1) : String × Nat).1 ≠ "MODE_XTS" ∧
      python_DES_new desKeyVec 7 none none = none :=
  ⟨C9_mode_constants.2.1 ("MODE_ECB", 1) (by decide),
   C9_mode_constants.2.2.2 desKeyVec none none⟩
